import Mathlib

/-!
Verification of the task-recorder backend core (action processor, LLM
fallback client, generation pipeline orchestrator, and the stage response
parsers) against its natural-language specification.

The TypeScript sources are shallowly embedded: JS strings are modelled as
`String`/`List Char`, JS numbers holding timestamps as `Int`, counters and
indices as `Nat`, thrown exceptions as `Except`/`Option`.  Platform
primitives that the code calls (`new URL(...).hostname`, `JSON.parse`, the
regexp engine, `String.prototype.trim`) are modelled by explicit executable
functions (`jsUrlHostname`, parser oracles passed as arguments, `splitFirst`
/ `captureUntil`, `jsTrim`), each restricted to the exact behaviour the
embedded code relies on.
-/

namespace TaskRecorder

/-! ## Character-list string primitives (model of the JS string/regexp operations) -/

/-- Model of a first-occurrence substring search: `splitFirst needle hay`
returns `some (before, after)` where `hay = before ++ needle ++ after` and
`before` is the shortest such prefix, or `none` when `needle` does not occur
in `hay`.  This is the semantics of the non-greedy first-match regexp
searches (`String.prototype.match` with a literal pattern) used by the stage
response parsers. -/
def splitFirst (needle : List Char) : List Char → Option (List Char × List Char)
  | [] => if needle.isEmpty then some ([], []) else none
  | c :: cs =>
    if needle.isPrefixOf (c :: cs) then some ([], (c :: cs).drop needle.length)
    else
      match splitFirst needle cs with
      | some (pre, post) => some (c :: pre, post)
      | none => none

/-- Model of a lazy capture group bounded by a lookahead alternation:
consume characters until (excluding) the first position where one of the
`stops` patterns begins, or to the end of the input.  This is the semantics
of `([\s\S]*?)(?=stop1|stop2|$)`. -/
def captureUntil (stops : List (List Char)) : List Char → List Char
  | [] => []
  | c :: cs =>
    if stops.any (fun p => p.isPrefixOf (c :: cs)) then []
    else c :: captureUntil stops cs

/-- Model of dropping a maximal leading whitespace run (left half of
`String.prototype.trim`). -/
def jsTrimLeft (l : List Char) : List Char := l.dropWhile Char.isWhitespace

/-- Model of dropping a maximal trailing whitespace run (right half of
`String.prototype.trim`), written recursively for easy induction. -/
def jsTrimRight : List Char → List Char
  | [] => []
  | c :: t =>
    match jsTrimRight t with
    | [] => if c.isWhitespace then [] else [c]
    | r => c :: r

/-- Model of `String.prototype.trim`. -/
def jsTrim (l : List Char) : List Char := jsTrimRight (jsTrimLeft l)

/-- `String`-level wrapper of `jsTrim`. -/
def jsTrimS (s : String) : String := String.mk (jsTrim s.toList)

/-! ## Model of the platform URL parser

The sources call `new URL(u).hostname` and treat a thrown `TypeError` as
"does not parse".  `jsUrlHostname` models this for the URL shapes the
backend sees: a scheme, the literal `://`, then a host read up to the first
`/`, `?`, `#` or `:`.  A string without `://`, with an ill-formed scheme or
with an empty host is a parse failure (`none`). -/

def isSchemeTailChar (c : Char) : Bool :=
  c.isAlpha || c.isDigit || c == '+' || c == '-' || c == '.'

def isHostEndChar (c : Char) : Bool :=
  c == '/' || c == '?' || c == '#' || c == ':'

def jsUrlHostname (s : String) : Option String :=
  match splitFirst "://".toList s.toList with
  | none => none
  | some (scheme, rest) =>
    match scheme with
    | [] => none
    | c :: cs =>
      if c.isAlpha && cs.all isSchemeTailChar then
        let host := rest.takeWhile (fun ch => !isHostEndChar ch)
        if host.isEmpty then none else some (String.mk host)
      else none

/-! ## Event model (src/extension/src/types.ts, re-exported by the backend) -/

inductive ActionType
  | click
  | input
  | navigation
  | copy
  | scroll
deriving DecidableEq, Repr

structure ActionTarget where
  selector : String
  text : String
  role : Option String
deriving DecidableEq, Repr

structure ActionMetadata where
  pageTitle : String
  h1 : Option String
  idleTimeBefore : Option Nat
deriving DecidableEq, Repr

structure Action where
  type : ActionType
  timestamp : Int
  url : String
  target : ActionTarget
  metadata : ActionMetadata
deriving DecidableEq, Repr

instance : Inhabited Action :=
  ⟨{ type := .click, timestamp := 0, url := "",
     target := { selector := "", text := "", role := none },
     metadata := { pageTitle := "", h1 := none, idleTimeBefore := none } }⟩

/-- JS array indexing `actions[i]` (in the embedded code only used with
`i < actions.length`). -/
def actAt (acts : List Action) (i : Nat) : Action := acts.getD i default

/-! ## Metrics data model (src/backend/src/services/processor.ts) -/

structure PauseInfo where
  index : Nat
  durationMs : Nat
deriving DecidableEq, Repr

structure BackForthPattern where
  indices : List Nat
deriving DecidableEq, Repr

structure RepeatedActionInfo where
  type : ActionType
  count : Nat
  indices : List Nat
deriving DecidableEq, Repr

structure ExtractionAction where
  index : Nat
  context : String
deriving DecidableEq, Repr

structure TaskMetrics where
  totalActions : Nat
  totalDurationMs : Int
  longPauses : List PauseInfo
  backForthPatterns : List BackForthPattern
  repeatedActions : List RepeatedActionInfo
  extractionActions : List ExtractionAction
  urlChanges : Nat
  uniqueDomains : List String
deriving DecidableEq, Repr

/-! ## detectLongPauses -/

/-- Loop of `detectLongPauses`: emit `{index, durationMs}` for every action
whose `idleTimeBefore` is truthy and `≥ 10000` (LONG_PAUSE_THRESHOLD_MS). -/
def lpLoop : List Action → Nat → List PauseInfo
  | [], _ => []
  | a :: rest, i =>
    (match a.metadata.idleTimeBefore with
     | some t => if t ≠ 0 ∧ 10000 ≤ t then [⟨i, t⟩] else []
     | none => []) ++ lpLoop rest (i + 1)

def detectLongPauses (acts : List Action) : List PauseInfo := lpLoop acts 0

/-! ## detectBackForthPatterns -/

/-- The JS `urlHistory.find((h, idx) => h.url === currentUrl && idx <
urlHistory.length - 1)`: the first (oldest) window entry with the given URL
that is not the last window entry, returned with its window position. -/
def findQualAux (url : String) (histLen : Nat) :
    List (String × Nat) → Nat → Option (Nat × String × Nat)
  | [], _ => none
  | e :: t, pos =>
    if e.1 = url ∧ pos + 1 < histLen then some (pos, e)
    else findQualAux url histLen t (pos + 1)

def findQualifying (hist : List (String × Nat)) (url : String) :
    Option (Nat × String × Nat) :=
  findQualAux url hist.length hist 0

/-- One iteration's emission: if a qualifying prior occurrence is found,
emit the pattern spanning from it through every later window entry to the
current index. -/
def bfEmit (hist : List (String × Nat)) (url : String) (i : Nat) :
    List BackForthPattern :=
  match findQualifying hist url with
  | some (pos, e) =>
    let inter := (hist.drop (pos + 1)).map Prod.snd
    if 0 < inter.length then [⟨e.2 :: (inter ++ [i])⟩] else []
  | none => []

/-- Push the current `(url, index)` visit and trim the window to the last 10
entries. -/
def bfPush (hist : List (String × Nat)) (url : String) (i : Nat) :
    List (String × Nat) :=
  let h := hist ++ [(url, i)]
  if 10 < h.length then h.drop 1 else h

/-- Loop of `detectBackForthPatterns` over the remaining actions, carrying
the sliding URL-history window. -/
def bfLoop (hist : List (String × Nat)) (i : Nat) : List Action → List BackForthPattern
  | [] => []
  | a :: rest =>
    bfEmit hist a.url i ++ bfLoop (bfPush hist a.url i) (i + 1) rest

def detectBackForthPatterns (acts : List Action) : List BackForthPattern :=
  bfLoop [] 0 acts

/-- The window state (`urlHistory`) at the start of iteration `i`, obtained
by replaying the pushes of iterations `0..i-1`. -/
def windowAt (acts : List Action) : Nat → List (String × Nat)
  | 0 => []
  | i + 1 => bfPush (windowAt acts i) (actAt acts i).url i

/-- The action indices of the qualifying window entries at iteration `i`:
entries other than the immediately preceding one whose URL equals the
current URL, oldest first. -/
def qualIndices (acts : List Action) (i : Nat) : List Nat :=
  let hist := windowAt acts i
  ((hist.take (hist.length - 1)).filter
    (fun e => e.1 = (actAt acts i).url)).map Prod.snd

/-! ## detectRepeatedActions -/

/-- Loop of `detectRepeatedActions`, carrying the current run's type and
collected indices; a finished run of length ≥ 3 (REPEATED_ACTION_THRESHOLD)
is emitted. -/
def repLoop : List Action → Nat → Option ActionType → List Nat → List RepeatedActionInfo
  | [], _, cur, idxs =>
    (match cur with
     | some t => if 3 ≤ idxs.length then [⟨t, idxs.length, idxs⟩] else []
     | none => [])
  | a :: rest, i, cur, idxs =>
    if cur = some a.type then repLoop rest (i + 1) cur (idxs ++ [i])
    else
      (match cur with
       | some t => if 3 ≤ idxs.length then [⟨t, idxs.length, idxs⟩] else []
       | none => []) ++ repLoop rest (i + 1) (some a.type) [i]

def detectRepeatedActions (acts : List Action) : List RepeatedActionInfo :=
  repLoop acts 0 none []

/-- Spec-side helper: the indices `i, i+1, ...` of the longest prefix of the
remaining actions whose type equals `t`. -/
def takeRun (t : ActionType) : List Action → Nat → List Nat
  | [], _ => []
  | a :: rest, i => if a.type = t then i :: takeRun t rest (i + 1) else []

/-- Modelled from the spec sentence "scan for maximal contiguous runs of
identical `type`": the list of maximal runs of the action list, each as its
type with the run's index list. -/
def maximalRuns : List Action → Nat → List (ActionType × List Nat)
  | [], _ => []
  | a :: rest, i =>
    let run := takeRun a.type rest (i + 1)
    (a.type, i :: run) :: maximalRuns (rest.drop run.length) (i + 1 + run.length)
termination_by l _ => l.length
decreasing_by
  simp only [List.length_drop, List.length_cons]
  omega

/-- Spec-side repeated-action detection: each maximal run of length ≥ 3
becomes one `RepeatedActionInfo` with `count` the run length and `indices`
the run's indices. -/
def specRuns (acts : List Action) (i : Nat) : List RepeatedActionInfo :=
  ((maximalRuns acts i).filter (fun r => 3 ≤ r.2.length)).map
    (fun r => ⟨r.1, r.2.length, r.2⟩)

/-! ## detectExtractionActions -/

def detectExtractionActions (acts : List Action) : List ExtractionAction :=
  ((acts.enum.filter (fun p => p.2.type = ActionType.copy)).map
    (fun p => ⟨p.1, p.2.metadata.pageTitle ++ " - " ++ p.2.target.text⟩))

/-! ## analyzeUrls -/

structure UrlAnalysis where
  urlChanges : Nat
  uniqueDomains : List String
deriving DecidableEq, Repr

/-- Loop of `analyzeUrls`: count URL changes against the previous URL
(sentinel `""`) and collect distinct hostnames in first-seen order (the JS
`Set` keeps insertion order); a URL that fails to parse is skipped for
domain collection but still counts as a change. -/
def urlLoop : List Action → String → Nat → List String → UrlAnalysis
  | [], _, changes, domains => ⟨changes, domains⟩
  | a :: rest, lastUrl, changes, domains =>
    if a.url ≠ lastUrl then
      let domains' :=
        match jsUrlHostname a.url with
        | some h => if h ∈ domains then domains else domains ++ [h]
        | none => domains
      urlLoop rest a.url (changes + 1) domains'
    else urlLoop rest lastUrl changes domains

def analyzeUrls (acts : List Action) : UrlAnalysis := urlLoop acts "" 0 []

/-! ## calculateMetrics -/

def emptyTaskMetrics : TaskMetrics :=
  { totalActions := 0
    totalDurationMs := 0
    longPauses := []
    backForthPatterns := []
    repeatedActions := []
    extractionActions := []
    urlChanges := 0
    uniqueDomains := [] }

def calculateMetrics (acts : List Action) : TaskMetrics :=
  if acts.length = 0 then emptyTaskMetrics
  else
    let ua := analyzeUrls acts
    { totalActions := acts.length
      totalDurationMs := (actAt acts (acts.length - 1)).timestamp - (actAt acts 0).timestamp
      longPauses := detectLongPauses acts
      backForthPatterns := detectBackForthPatterns acts
      repeatedActions := detectRepeatedActions acts
      extractionActions := detectExtractionActions acts
      urlChanges := ua.urlChanges
      uniqueDomains := ua.uniqueDomains }

/-! ## Pre-chunking (preChunkActions) -/

inductive Boundary
  | url_change
  | long_pause
  | mode_change
  | start
deriving DecidableEq, Repr

structure PreChunk where
  startIndex : Nat
  endIndex : Nat
  actions : List Action
  boundary : Boundary
deriving DecidableEq, Repr

inductive ActionMode
  | navigation
  | interaction
  | extraction
deriving DecidableEq, Repr

def getActionMode : ActionType → ActionMode
  | .navigation => .navigation
  | .scroll => .navigation
  | .copy => .extraction
  | _ => .interaction

/-- The boundary test of the `preChunkActions` loop body at one index, in
the source's priority order: a long pause (`idleTimeBefore || 0` at least
15000, CHUNK_PAUSE_THRESHOLD_MS) wins; otherwise, only when the URL string
changed, a hostname comparison (any parse failure splits); otherwise, only
when the URL string did not change, a coarse-mode change. -/
def splitBoundary (prev curr : Action) : Option Boundary :=
  if 15000 ≤ curr.metadata.idleTimeBefore.getD 0 then some .long_pause
  else if curr.url ≠ prev.url then
    match jsUrlHostname prev.url, jsUrlHostname curr.url with
    | some d1, some d2 => if d1 ≠ d2 then some .url_change else none
    | _, _ => some .url_change
  else if getActionMode curr.type ≠ getActionMode prev.type then some .mode_change
  else none

/-- `createChunk`'s chunk construction: the chunk's `actions` field is
`actions.slice(startIndex, endIndex + 1)`. -/
def mkChunk (acts : List Action) (s e : Nat) (b : Boundary) : PreChunk :=
  { startIndex := s, endIndex := e,
    actions := (acts.drop s).take (e + 1 - s), boundary := b }

/-- Loop of `preChunkActions` from index `i` on, with `prev` the previous
action, `curStart` the open chunk's start; returns the chunks created from
this point (the accumulating array only ever grows, so the suffix fully
describes the loop's effect).  `createChunk`'s `endIndex >= currentChunkStart`
guard is kept.  After the loop the still-open trailing chunk is closed with
label `start`. -/
def preChunkLoop (acts : List Action) : List Action → Action → Nat → Nat → List PreChunk
  | [], _, _, curStart =>
    if curStart < acts.length then [mkChunk acts curStart (acts.length - 1) .start] else []
  | curr :: rest, prev, i, curStart =>
    match splitBoundary prev curr with
    | some b =>
      if curStart ≤ i - 1 then
        mkChunk acts curStart (i - 1) b :: preChunkLoop acts rest curr (i + 1) i
      else preChunkLoop acts rest curr (i + 1) curStart
    | none => preChunkLoop acts rest curr (i + 1) curStart

def preChunkActions (acts : List Action) : List PreChunk :=
  match acts with
  | [] => []
  | a0 :: rest => preChunkLoop acts rest a0 1 0

/-- Contiguity predicate: starting from expected start `s`, each chunk
starts where announced, spans a nonempty index range, and the next chunk
starts right after it. -/
def chunksChained : Nat → List PreChunk → Prop
  | _, [] => True
  | s, c :: cs => c.startIndex = s ∧ s ≤ c.endIndex ∧ chunksChained (c.endIndex + 1) cs

instance : ∀ s cs, Decidable (chunksChained s cs)
  | _, [] => isTrue trivial
  | _, c :: cs =>
    have : Decidable (chunksChained (c.endIndex + 1) cs) := instDecidableChunksChained _ cs
    inferInstanceAs (Decidable (_ ∧ _ ∧ _))

/-- `endIndex` of the last chunk (0 when there is none). -/
def lastEnd : List PreChunk → Nat
  | [] => 0
  | [c] => c.endIndex
  | _ :: cs => lastEnd cs

theorem lastEnd_cons {c : PreChunk} {cs : List PreChunk} (h : cs ≠ []) :
    lastEnd (c :: cs) = lastEnd cs := by
  cases cs with
  | nil => exact absurd rfl h
  | cons d ds => rfl

theorem preChunkLoop_chain (acts : List Action) :
    ∀ (rest : List Action) (prev : Action) (i curStart : Nat),
      i + rest.length = acts.length → curStart < i →
      chunksChained curStart (preChunkLoop acts rest prev i curStart) ∧
      preChunkLoop acts rest prev i curStart ≠ [] ∧
      (∀ c ∈ preChunkLoop acts rest prev i curStart,
        c.actions = (acts.drop c.startIndex).take (c.endIndex + 1 - c.startIndex)) ∧
      lastEnd (preChunkLoop acts rest prev i curStart) = acts.length - 1 := by
  intro rest
  induction rest with
  | nil =>
    intro prev i curStart hlen hlt
    have hi : i = acts.length := by simpa using hlen
    have hcs : curStart < acts.length := hi ▸ hlt
    simp only [preChunkLoop, if_pos hcs]
    refine ⟨⟨rfl, show curStart ≤ acts.length - 1 by omega, trivial⟩, by simp, ?_, rfl⟩
    intro c hc
    simp only [List.mem_singleton] at hc
    subst hc
    rfl
  | cons curr rest' ih =>
    intro prev i curStart hlen hlt
    have hlen' : (i + 1) + rest'.length = acts.length := by
      simp only [List.length_cons] at hlen
      omega
    simp only [preChunkLoop]
    cases hsb : splitBoundary prev curr with
    | none => exact ih curr (i + 1) curStart hlen' (by omega)
    | some b =>
      have hguard : curStart ≤ i - 1 := by omega
      simp only [if_pos hguard]
      obtain ⟨hch, hne, hmem, hle⟩ := ih curr (i + 1) i hlen' (by omega)
      have hsucc : i - 1 + 1 = i := by omega
      refine ⟨⟨rfl, hguard, show chunksChained (i - 1 + 1) _ from by rw [hsucc]; exact hch⟩,
        by simp, ?_, ?_⟩
      · intro c hc
        rcases List.mem_cons.mp hc with hc | hc
        · subst hc; rfl
        · exact hmem c hc
      · rw [lastEnd_cons hne]
        exact hle

/-- **C1.** For every non-empty action list, `preChunkActions` returns a
non-empty chunk list that is contiguous, total-covering and non-overlapping:
the first chunk's `startIndex` is 0 and each subsequent chunk starts at the
previous chunk's `endIndex + 1` (`chunksChained 0`), the last chunk's
`endIndex` is `actions.length - 1`, and each chunk's `actions` field is
exactly the slice of the input from its `startIndex` through its
`endIndex`. -/
theorem preChunk_contiguous_total_cover (acts : List Action) (h : acts ≠ []) :
    preChunkActions acts ≠ [] ∧
    chunksChained 0 (preChunkActions acts) ∧
    lastEnd (preChunkActions acts) = acts.length - 1 ∧
    ∀ c ∈ preChunkActions acts,
      c.actions = (acts.drop c.startIndex).take (c.endIndex + 1 - c.startIndex) := by
  cases acts with
  | nil => exact absurd rfl h
  | cons a0 rest =>
    obtain ⟨hch, hne, hmem, hle⟩ :=
      preChunkLoop_chain (a0 :: rest) rest a0 1 0 (by simp; omega) (by omega)
    exact ⟨hne, hch, hle, hmem⟩

/-- Witness for C1 at a concrete two-action input. -/
theorem preChunk_contiguous_total_cover_witness :
    preChunkActions [default, default] ≠ [] ∧
    chunksChained 0 (preChunkActions [default, default]) ∧
    lastEnd (preChunkActions [default, default]) = 1 ∧
    ∀ c ∈ preChunkActions [default, default],
      c.actions =
        (([default, default] : List Action).drop c.startIndex).take
          (c.endIndex + 1 - c.startIndex) :=
  preChunk_contiguous_total_cover [default, default] (by simp)

theorem actAt_of_drop :
    ∀ (acts : List Action) (i : Nat) (c : Action) (r : List Action),
      acts.drop i = c :: r → actAt acts i = c := by
  intro acts
  induction acts with
  | nil => intro i c r h; simp at h
  | cons a t ih =>
    intro i c r h
    cases i with
    | zero => simp at h; simp [actAt, h.1]
    | succ j =>
      simp only [List.drop_succ_cons] at h
      simpa [actAt] using ih j c r h

theorem drop_succ_of_drop {acts : List Action} {i : Nat} {c : Action} {r : List Action}
    (h : acts.drop i = c :: r) : acts.drop (i + 1) = r := by
  have : acts.drop (i + 1) = (acts.drop i).drop 1 := by
    rw [List.drop_drop]
  rw [this, h]
  rfl

theorem preChunkLoop_boundaries (acts : List Action) :
    ∀ (rest : List Action) (prev : Action) (i curStart : Nat),
      rest = acts.drop i → prev = actAt acts (i - 1) →
      1 ≤ i → curStart < i → i ≤ acts.length →
      (∀ c ∈ preChunkLoop acts rest prev i curStart, i - 1 ≤ c.endIndex) ∧
      (∀ k, i ≤ k → k < acts.length →
        ((∃ c ∈ preChunkLoop acts rest prev i curStart, c.endIndex = k - 1) ↔
          (splitBoundary (actAt acts (k - 1)) (actAt acts k)).isSome = true) ∧
        (∀ c ∈ preChunkLoop acts rest prev i curStart, c.endIndex = k - 1 →
          some c.boundary = splitBoundary (actAt acts (k - 1)) (actAt acts k))) := by
  intro rest
  induction rest with
  | nil =>
    intro prev i curStart hdrop hprev h1 hlt hle
    have hi : acts.length ≤ i := by
      by_contra hcon
      push_neg at hcon
      have := List.drop_eq_nil_iff.mp hdrop.symm
      omega
    have hieq : i = acts.length := le_antisymm hle hi
    constructor
    · intro c hc
      simp only [preChunkLoop] at hc
      by_cases hcs : curStart < acts.length
      · simp only [if_pos hcs, List.mem_singleton] at hc
        subst hc
        show i - 1 ≤ acts.length - 1
        omega
      · simp [if_neg hcs] at hc
    · intro k hk1 hk2
      omega
  | cons curr rest' ih =>
    intro prev i curStart hdrop hprev h1 hlt hle
    have hcurr : actAt acts i = curr := actAt_of_drop acts i curr rest' hdrop.symm
    have hdrop' : rest' = acts.drop (i + 1) := (drop_succ_of_drop hdrop.symm).symm
    have hilt : i < acts.length := by
      by_contra hcon
      push_neg at hcon
      have : acts.drop i = [] := List.drop_eq_nil_iff.mpr hcon
      rw [this] at hdrop
      simp at hdrop
    have hprev' : curr = actAt acts ((i + 1) - 1) := by
      simpa using hcurr.symm
    obtain ⟨iha, ihb⟩ :=
      ih curr (i + 1) i hdrop' hprev' (by omega) (by omega) (by omega)
    obtain ⟨iha', ihb'⟩ :=
      ih curr (i + 1) curStart hdrop' hprev' (by omega) (by omega) (by omega)
    have hsplit : splitBoundary (actAt acts (i - 1)) (actAt acts i) = splitBoundary prev curr := by
      rw [hprev, hcurr]
    simp only [preChunkLoop]
    cases hsb : splitBoundary prev curr with
    | none =>
      constructor
      · intro c hc
        have := iha' c hc
        omega
      · intro k hk1 hk2
        rcases Nat.eq_or_lt_of_le hk1 with hk | hk
        · subst hk
          constructor
          · constructor
            · rintro ⟨c, hc, hce⟩
              have := iha' c hc
              omega
            · intro hs
              rw [hsplit, hsb] at hs
              simp at hs
          · intro c hc hce
            have := iha' c hc
            omega
        · exact ihb' k hk hk2
    | some b =>
      have hguard : curStart ≤ i - 1 := by omega
      simp only [if_pos hguard]
      constructor
      · intro c hc
        rcases List.mem_cons.mp hc with hc | hc
        · subst hc; exact le_refl _
        · have := iha c hc
          omega
      · intro k hk1 hk2
        rcases Nat.eq_or_lt_of_le hk1 with hk | hk
        · subst hk
          constructor
          · constructor
            · intro _
              rw [hsplit, hsb]
              rfl
            · intro _
              exact ⟨_, List.mem_cons_self _ _, rfl⟩
          · intro c hc hce
            rcases List.mem_cons.mp hc with hc | hc
            · subst hc
              rw [hsplit, hsb]
              rfl
            · have := iha c hc
              omega
        · constructor
          · constructor
            · rintro ⟨c, hc, hce⟩
              rcases List.mem_cons.mp hc with hc | hc
              · subst hc
                simp only [mkChunk] at hce
                omega
              · exact ((ihb k hk hk2).1).mp ⟨c, hc, hce⟩
            · intro hs
              obtain ⟨c, hc, hce⟩ := ((ihb k hk hk2).1).mpr hs
              exact ⟨c, List.mem_cons_of_mem _ hc, hce⟩
          · intro c hc hce
            rcases List.mem_cons.mp hc with hc | hc
            · subst hc
              simp only [mkChunk] at hce
              omega
            · exact (ihb k hk hk2).2 c hc hce

/-- **C6 (amended).** For every non-empty action list and every index
`1 ≤ k < actions.length`, `preChunkActions` inserts a boundary before index
`k` (that is, some produced chunk ends at `k - 1`) exactly when
`splitBoundary actions[k-1] actions[k]` fires, and the separating chunk
carries that rule's label.  `splitBoundary` applies the rules in priority
order with only the first match firing: (1) `idleTimeBefore ≥ 15000` →
`long_pause`; else (2) **only when the URL strings differ**, a hostname
comparison where a differing hostname or any parse failure →
`url_change`, while equal hostnames yield no boundary at all (rule 3 is
not reached); else (3) — only when the URL strings are equal — a coarse
mode change → `mode_change`. -/
theorem preChunk_boundary_rules (acts : List Action) (k : Nat)
    (h1 : 1 ≤ k) (h2 : k < acts.length) :
    ((∃ c ∈ preChunkActions acts, c.endIndex = k - 1) ↔
      (splitBoundary (actAt acts (k - 1)) (actAt acts k)).isSome = true) ∧
    (∀ c ∈ preChunkActions acts, c.endIndex = k - 1 →
      some c.boundary = splitBoundary (actAt acts (k - 1)) (actAt acts k)) := by
  cases acts with
  | nil => simp at h2
  | cons a0 rest =>
    have h :=
      (preChunkLoop_boundaries (a0 :: rest) rest a0 1 0 rfl rfl (le_refl 1) (by omega)
        (by simp)).2 k h1 h2
    exact h

/-- The boundary rule exactly as claim C6 states it: rule (2) compares
hostnames (any parse failure counts as differing) with no regard to whether
the URL strings are equal, and rule (3) is reached whenever rule (2) does
not fire. -/
def hostsDifferOrUnparseable (u v : String) : Bool :=
  match jsUrlHostname u, jsUrlHostname v with
  | some d1, some d2 => d1 != d2
  | _, _ => true

def statedBoundaryRule (prev curr : Action) : Option Boundary :=
  if 15000 ≤ curr.metadata.idleTimeBefore.getD 0 then some .long_pause
  else if hostsDifferOrUnparseable prev.url curr.url then some .url_change
  else if getActionMode curr.type ≠ getActionMode prev.type then some .mode_change
  else none

def exC6a : Action :=
  { type := .navigation, timestamp := 0, url := "http://a/x",
    target := { selector := "", text := "", role := none },
    metadata := { pageTitle := "", h1 := none, idleTimeBefore := none } }

def exC6b : Action :=
  { type := .copy, timestamp := 0, url := "http://a/y",
    target := { selector := "", text := "", role := none },
    metadata := { pageTitle := "", h1 := none, idleTimeBefore := none } }

/-- **C6 counterexample.** On two actions whose URLs differ as strings but
share hostname `a`, with a coarse mode change (`navigation` → `copy`), the
rule chain as the claim states it fires (`mode_change` before index 1), yet
`preChunkActions` inserts no boundary there: the source tests the mode rule
only when the URL string did not change, so the action list stays one
chunk. -/
theorem preChunk_stated_rule_counterexample :
    statedBoundaryRule exC6a exC6b = some .mode_change ∧
    (∀ c ∈ preChunkActions [exC6a, exC6b], c.endIndex ≠ 0) := by decide

/-- Witness for the amended C6 at a concrete input with a genuine
`url_change` boundary before index 1. -/
theorem preChunk_boundary_rules_witness :
    ((∃ c ∈ preChunkActions [exC6a, { exC6b with url := "http://b/y" }], c.endIndex = 0) ↔
      (splitBoundary (actAt [exC6a, { exC6b with url := "http://b/y" }] 0)
        (actAt [exC6a, { exC6b with url := "http://b/y" }] 1)).isSome = true) ∧
    (∀ c ∈ preChunkActions [exC6a, { exC6b with url := "http://b/y" }], c.endIndex = 0 →
      some c.boundary =
        splitBoundary (actAt [exC6a, { exC6b with url := "http://b/y" }] 0)
          (actAt [exC6a, { exC6b with url := "http://b/y" }] 1)) :=
  preChunk_boundary_rules [exC6a, { exC6b with url := "http://b/y" }] 1 (by decide) (by decide)

theorem specRuns_nil (i : Nat) : specRuns [] i = [] := by
  simp [specRuns, maximalRuns]

theorem specRuns_cons (a : Action) (rest : List Action) (i : Nat) :
    specRuns (a :: rest) i =
      (if 3 ≤ (i :: takeRun a.type rest (i + 1)).length then
        [⟨a.type, (i :: takeRun a.type rest (i + 1)).length, i :: takeRun a.type rest (i + 1)⟩]
       else []) ++
      specRuns (rest.drop (takeRun a.type rest (i + 1)).length)
        (i + 1 + (takeRun a.type rest (i + 1)).length) := by
  rw [specRuns, maximalRuns]
  by_cases h : 3 ≤ (i :: takeRun a.type rest (i + 1)).length
  · simp only [List.filter_cons, decide_eq_true_eq, if_pos h, List.map_cons, specRuns]
    simp
  · simp only [List.filter_cons, decide_eq_true_eq, if_neg h, specRuns]
    simp [h]

theorem repLoop_spec :
    ∀ (rest : List Action) (i : Nat) (t : ActionType) (idxs : List Nat),
      repLoop rest i (some t) idxs =
        (if 3 ≤ (idxs ++ takeRun t rest i).length then
          [⟨t, (idxs ++ takeRun t rest i).length, idxs ++ takeRun t rest i⟩] else []) ++
        specRuns (rest.drop (takeRun t rest i).length) (i + (takeRun t rest i).length) := by
  intro rest
  induction rest with
  | nil =>
    intro i t idxs
    simp [repLoop, takeRun, specRuns_nil]
  | cons a rest' ih =>
    intro i t idxs
    by_cases h : a.type = t
    · have hrun : takeRun t (a :: rest') i = i :: takeRun t rest' (i + 1) := by
        simp [takeRun, h]
      have hcur : (some t = some a.type) := by rw [h]
      rw [repLoop, if_pos hcur, ih (i + 1) t (idxs ++ [i]), hrun]
      have harith : i + (takeRun t rest' (i + 1)).length.succ =
          i + 1 + (takeRun t rest' (i + 1)).length := by omega
      simp [List.append_assoc, List.length_append, List.drop_succ_cons, Nat.succ_eq_add_one]
      congr 1
      omega
    · have hrun : takeRun t (a :: rest') i = [] := by
        simp [takeRun, h]
      have hcur : ¬ (some t = some a.type) := by
        intro hc
        exact h (Option.some.inj hc).symm
      rw [repLoop, if_neg hcur, ih (i + 1) a.type [i], hrun]
      simp only [List.length_nil, List.drop_zero, List.append_nil, Nat.add_zero]
      rw [specRuns_cons]
      simp

/-- **C7.** `detectRepeatedActions` agrees with the specification-side
description: scanning for maximal contiguous runs of identical `type`
(regardless of target), every maximal run of length `n ≥ 3` is captured as
exactly one `RepeatedActionInfo` whose `count` is `n` and whose `indices`
are exactly the run's indices (never split into sub-runs), and runs of
length < 3 produce no entry.  `specRuns` is the spec-side definition
(maximal runs, filtered to length ≥ 3, mapped to entries). -/
theorem detectRepeatedActions_eq_specRuns (acts : List Action) :
    detectRepeatedActions acts = specRuns acts 0 := by
  cases acts with
  | nil => simp [detectRepeatedActions, repLoop, specRuns_nil]
  | cons a rest =>
    have h0 : repLoop (a :: rest) 0 none [] = repLoop rest 1 (some a.type) [0] := by
      rw [repLoop]
      simp
    rw [detectRepeatedActions, h0, repLoop_spec rest 1 a.type [0], specRuns_cons]
    simp

theorem mem_detectExtraction (acts : List Action) (e : ExtractionAction) :
    e ∈ detectExtractionActions acts ↔
      ∃ p : Nat × Action, acts[p.1]? = some p.2 ∧ p.2.type = ActionType.copy ∧
        e = ⟨p.1, p.2.metadata.pageTitle ++ " - " ++ p.2.target.text⟩ := by
  simp only [detectExtractionActions, List.mem_map, List.mem_filter]
  constructor
  · rintro ⟨p, ⟨hpmem, hptype⟩, rfl⟩
    refine ⟨p, ?_, by simpa using hptype, rfl⟩
    exact List.mk_mem_enum_iff_getElem?.mp hpmem
  · rintro ⟨p, hget, htype, rfl⟩
    exact ⟨p, ⟨List.mk_mem_enum_iff_getElem?.mpr hget, by simpa using htype⟩, rfl⟩

/-- **C9 (amended).** `computeMetrics`' extraction detection maps each
action of type `copy` — and only those — to an `ExtractionAction` at that
action's index, whose `context` is the page title, the literal separator
`" - "`, and the action's **full** target text.  (The claimed truncation of
the target text does not exist in this function; see the counterexample.) -/
theorem detectExtraction_copy_actions (acts : List Action) (i : Nat)
    (hi : i < acts.length) :
    ((actAt acts i).type = ActionType.copy ↔
      ∃ e ∈ detectExtractionActions acts, e.index = i) ∧
    (∀ e ∈ detectExtractionActions acts, e.index = i →
      e.context =
        (actAt acts i).metadata.pageTitle ++ " - " ++ (actAt acts i).target.text) := by
  have hget : acts[i]? = some (actAt acts i) := by
    rw [List.getElem?_eq_getElem hi]
    simp [actAt, List.getD_eq_getElem?_getD, List.getElem?_eq_getElem hi]
  constructor
  · constructor
    · intro hcopy
      exact ⟨⟨i, (actAt acts i).metadata.pageTitle ++ " - " ++ (actAt acts i).target.text⟩,
        (mem_detectExtraction acts _).mpr ⟨(i, actAt acts i), hget, hcopy, rfl⟩, rfl⟩
    · rintro ⟨e, hmem, hidx⟩
      obtain ⟨p, hp, htype, rfl⟩ := (mem_detectExtraction acts e).mp hmem
      simp only at hidx
      subst hidx
      rw [hget] at hp
      rw [← Option.some.inj hp] at htype
      exact htype
  · intro e hmem hidx
    obtain ⟨p, hp, htype, rfl⟩ := (mem_detectExtraction acts e).mp hmem
    simp only at hidx ⊢
    subst hidx
    rw [hget] at hp
    rw [← Option.some.inj hp]

/-- Witness for the amended C9 at a one-action input of type `copy`. -/
theorem detectExtraction_copy_actions_witness :
    ((actAt [{ (default : Action) with type := .copy }] 0).type = ActionType.copy ↔
      ∃ e ∈ detectExtractionActions [{ (default : Action) with type := .copy }], e.index = 0) ∧
    (∀ e ∈ detectExtractionActions [{ (default : Action) with type := .copy }], e.index = 0 →
      e.context =
        (actAt [{ (default : Action) with type := .copy }] 0).metadata.pageTitle ++ " - " ++
          (actAt [{ (default : Action) with type := .copy }] 0).target.text) :=
  detectExtraction_copy_actions [{ (default : Action) with type := .copy }] 0 (by decide)

/-- **C9 counterexample.** The claim that the context string is built "with
the target text truncated to a bounded length" is false: no bound `B`
works, because `detectExtractionActions` embeds the target text verbatim —
an action with empty page title and a target text of length `B + 1` yields
a context of length `3 + (B + 1) > 0 + 3 + B`. -/
theorem detectExtraction_truncation_counterexample :
    ¬ ∃ B : Nat, ∀ a : Action, a.type = ActionType.copy →
        ∀ e ∈ detectExtractionActions [a],
          e.context.length ≤ a.metadata.pageTitle.length + 3 + B := by
  rintro ⟨B, hB⟩
  have he :
      (⟨0, "" ++ " - " ++ String.mk (List.replicate (B + 1) 'a')⟩ : ExtractionAction) ∈
        detectExtractionActions
          [{ type := .copy, timestamp := 0, url := "",
             target := { selector := "", text := String.mk (List.replicate (B + 1) 'a'),
                         role := none },
             metadata := { pageTitle := "", h1 := none, idleTimeBefore := none } }] := by
    apply (mem_detectExtraction _ _).mpr
    exact ⟨(0, _), rfl, rfl, rfl⟩
  have hle := hB _ rfl _ he
  simp only [String.length_append] at hle
  simp at hle
  have h3 : (" - " : String).length = 3 := rfl
  omega

theorem urlLoop_changes_le :
    ∀ (rest : List Action) (lastUrl : String) (changes : Nat) (domains : List String),
      changes ≤ (urlLoop rest lastUrl changes domains).urlChanges := by
  intro rest
  induction rest with
  | nil => intro lastUrl changes domains; simp [urlLoop]
  | cons a t ih =>
    intro lastUrl changes domains
    by_cases h : a.url ≠ lastUrl
    · simp only [urlLoop, if_pos h]
      exact le_trans (Nat.le_succ changes) (ih _ _ _)
    · simp only [urlLoop, if_neg h]
      exact ih _ _ _

theorem urlLoop_changes_const :
    ∀ (rest : List Action) (u : String) (changes : Nat) (domains : List String),
      (∀ x ∈ rest, x.url = u) →
      (urlLoop rest u changes domains).urlChanges = changes := by
  intro rest
  induction rest with
  | nil => intro u changes domains _; simp [urlLoop]
  | cons a t ih =>
    intro u changes domains hall
    have ha : a.url = u := hall a (List.mem_cons_self _ _)
    have hne : ¬ a.url ≠ u := by simp [ha]
    simp only [urlLoop, if_neg hne]
    exact ih u changes domains (fun x hx => hall x (List.mem_cons_of_mem _ hx))

/-- **C10.** `analyzeUrls` starts the URL-change counter from an
empty-string sentinel rather than from the first action's URL: for every
non-empty action list whose first action carries a non-empty URL, the first
action itself counts as a URL change (`urlChanges ≥ 1`), and in particular
a list in which every action carries the same non-empty URL yields
`urlChanges = 1`, not 0. -/
theorem analyzeUrls_sentinel (u : String) (a : Action) (rest : List Action) :
    (a.url ≠ "" → 1 ≤ (analyzeUrls (a :: rest)).urlChanges) ∧
    (u ≠ "" → (∀ x ∈ a :: rest, x.url = u) →
      (analyzeUrls (a :: rest)).urlChanges = 1) := by
  constructor
  · intro hne
    simp only [analyzeUrls, urlLoop, if_pos hne]
    exact urlLoop_changes_le _ _ _ _
  · intro hu hall
    have ha : a.url = u := hall a (List.mem_cons_self _ _)
    have hne : a.url ≠ "" := by rw [ha]; exact hu
    simp only [analyzeUrls, urlLoop, if_pos hne]
    rw [ha]
    exact urlLoop_changes_const _ _ _ _ (fun x hx => hall x (List.mem_cons_of_mem _ hx))

/-- Witness for C10: two actions sharing the same non-empty URL produce
exactly one counted URL change. -/
theorem analyzeUrls_sentinel_witness :
    (analyzeUrls [{ (default : Action) with url := "http://a/x" },
                  { (default : Action) with url := "http://a/x" }]).urlChanges = 1 :=
  (analyzeUrls_sentinel "http://a/x" { (default : Action) with url := "http://a/x" }
    [{ (default : Action) with url := "http://a/x" }]).2 (by decide) (by decide)

theorem findQualAux_spec (url : String) (L : Nat) :
    ∀ (l : List (String × Nat)) (pos : Nat), pos + l.length = L →
      (findQualAux url L l pos).map (fun r => r.2) =
        ((l.take (l.length - 1)).filter (fun e => e.1 = url)).head? := by
  intro l
  induction l with
  | nil => intro pos _; simp [findQualAux]
  | cons e t ih =>
    intro pos hlen
    cases t with
    | nil =>
      have hcond : ¬ (e.1 = url ∧ pos + 1 < L) := by
        rintro ⟨_, hlt⟩
        simp at hlen
        omega
      simp [findQualAux, hcond]
    | cons x t' =>
      have hlt : pos + 1 < L := by
        simp [List.length_cons] at hlen
        omega
      by_cases hurl : e.1 = url
      · have hcond : e.1 = url ∧ pos + 1 < L := ⟨hurl, hlt⟩
        simp only [findQualAux, if_pos hcond, Option.map_some]
        have htake : ((e :: x :: t').take ((e :: x :: t').length - 1)) =
            e :: ((x :: t').take ((x :: t').length - 1)) := by
          simp [List.length_cons]
        rw [htake]
        simp [List.filter_cons, hurl]
      · have hcond : ¬ (e.1 = url ∧ pos + 1 < L) := by
          rintro ⟨h1, _⟩
          exact hurl h1
        rw [show findQualAux url L (e :: x :: t') pos =
          if e.1 = url ∧ pos + 1 < L then some (pos, e)
          else findQualAux url L (x :: t') (pos + 1) from rfl]
        rw [if_neg hcond]
        rw [ih (pos + 1) (by simp [List.length_cons] at hlen ⊢; omega)]
        have htake : ((e :: x :: t').take ((e :: x :: t').length - 1)) =
            e :: ((x :: t').take ((x :: t').length - 1)) := by
          simp [List.length_cons]
        rw [htake]
        simp [List.filter_cons, hurl]

theorem findQualifying_head (hist : List (String × Nat)) (url : String) :
    (findQualifying hist url).map (fun r => r.2.2) =
      (((hist.take (hist.length - 1)).filter (fun e => e.1 = url)).map Prod.snd).head? := by
  have h := findQualAux_spec url hist.length hist 0 (by simp)
  rw [List.head?_map, ← h, findQualifying]
  cases findQualAux url hist.length hist 0 <;> simp

theorem bfLoop_mem (acts : List Action) :
    ∀ (rest : List Action) (i : Nat), rest = acts.drop i →
      ∀ p ∈ bfLoop (windowAt acts i) i rest,
        ∃ j, i ≤ j ∧ j < acts.length ∧ p ∈ bfEmit (windowAt acts j) (actAt acts j).url j := by
  intro rest
  induction rest with
  | nil => intro i _ p hp; simp [bfLoop] at hp
  | cons a t ih =>
    intro i hdrop p hp
    have ha : actAt acts i = a := actAt_of_drop acts i a t hdrop.symm
    have hdrop' : t = acts.drop (i + 1) := (drop_succ_of_drop hdrop.symm).symm
    have hilt : i < acts.length := by
      by_contra hcon
      push_neg at hcon
      have : acts.drop i = [] := List.drop_eq_nil_iff.mpr hcon
      rw [this] at hdrop
      simp at hdrop
    simp only [bfLoop, List.mem_append] at hp
    rcases hp with hp | hp
    · exact ⟨i, le_refl i, hilt, by rw [ha]; exact hp⟩
    · have hwin : bfPush (windowAt acts i) a.url i = windowAt acts (i + 1) := by
        rw [windowAt, ha]
      rw [hwin] at hp
      obtain ⟨j, hij, hjlt, hpj⟩ := ih (i + 1) hdrop' p hp
      exact ⟨j, by omega, hjlt, hpj⟩

/-- **C2 (amended).** In back-and-forth detection, every emitted pattern
ending at action index `i` is anchored at the **oldest** qualifying prior
occurrence of `actions[i].url` inside the 10-entry sliding window — its
`indices` start at the *earliest* same-URL window index (the head of
`qualIndices`), not at the most recent one: the source uses
`urlHistory.find`, which returns the first (oldest) matching window
entry. -/
theorem backForth_anchor_oldest (acts : List Action) (i : Nat) (p : BackForthPattern)
    (hmem : p ∈ detectBackForthPatterns acts)
    (hlast : p.indices.getLast? = some i) :
    p.indices.head? = (qualIndices acts i).head? := by
  have h0 : (acts : List Action) = acts.drop 0 := rfl
  obtain ⟨j, _, _, hpj⟩ := bfLoop_mem acts acts 0 h0 p hmem
  cases hfind : findQualifying (windowAt acts j) (actAt acts j).url with
  | none => simp [bfEmit, hfind] at hpj
  | some r =>
    obtain ⟨pos, e⟩ := r
    simp only [bfEmit, hfind] at hpj
    by_cases hlen : 0 < (((windowAt acts j).drop (pos + 1)).map Prod.snd).length
    · rw [if_pos hlen] at hpj
      simp only [List.mem_singleton] at hpj
      subst hpj
      have hj : j = i := by
        have : (e.2 :: (((windowAt acts j).drop (pos + 1)).map Prod.snd ++ [j])).getLast? =
            some j := by
          rw [← List.cons_append, List.getLast?_concat]
        simp only [BackForthPattern.indices] at hlast
        rw [this] at hlast
        exact Option.some.inj hlast
      subst hj
      have hq : (qualIndices acts j).head? =
          (findQualifying (windowAt acts j) (actAt acts j).url).map (fun r => r.2.2) := by
        rw [findQualifying_head]
        simp [qualIndices]
      rw [hq, hfind]
      rfl
    · rw [if_neg hlen] at hpj
      simp at hpj

def exC2 : List Action :=
  [{ (default : Action) with type := .navigation, url := "A" },
   { (default : Action) with type := .navigation, url := "B" },
   { (default : Action) with type := .navigation, url := "A" },
   { (default : Action) with type := .navigation, url := "B" },
   { (default : Action) with type := .navigation, url := "A" }]

/-- **C2 counterexample.** On the URL sequence `A, B, A, B, A`, at index
4 the URL `A` matches two qualifying window entries (indices 0 and 2; the
nearest is 2), but the pattern ending at index 4 is `[0, 1, 2, 3, 4]` —
anchored at the *older* occurrence 0, not at the nearest qualifying prior
occurrence 2 as the claim states. -/
theorem backForth_nearest_counterexample :
    2 ≤ (qualIndices exC2 4).length ∧
    (qualIndices exC2 4).getLast? = some 2 ∧
    (⟨[0, 1, 2, 3, 4]⟩ : BackForthPattern) ∈ detectBackForthPatterns exC2 ∧
    ([0, 1, 2, 3, 4] : List Nat).getLast? = some 4 ∧
    ¬ (([0, 1, 2, 3, 4] : List Nat).head? = some 2) := by decide

/-- Witness for the amended C2: on the same concrete run, the pattern
ending at index 4 starts at the oldest qualifying occurrence, index 0. -/
theorem backForth_anchor_oldest_witness :
    (⟨[0, 1, 2, 3, 4]⟩ : BackForthPattern).indices.head? = (qualIndices exC2 4).head? :=
  backForth_anchor_oldest exC2 4 ⟨[0, 1, 2, 3, 4]⟩ (by decide) (by decide)

/-! ## LLM adapter (src/backend/src/services/llm.ts)

`complete` is embedded with the single per-model attempt abstracted as a
function `attempt : String → Except String String` (success text or thrown
error message of `completeWithClaude` / `completeWithOpenAI` for a given
model identifier); the prompt and options are fixed throughout one call and
are absorbed into `attempt`. -/

/-- The aggregated failure message built when every model failed:
`All ${provider} models failed:\n  ${model}: ${error}` joined with
`\n  `. -/
def aggregateFailure (provider : String) (errors : List (String × String)) : String :=
  "All " ++ provider ++ " models failed:\n  " ++
    String.intercalate "\n  " (errors.map (fun e => e.1 ++ ": " ++ e.2))

/-- Loop of `complete` over the remaining fallback chain, carrying the
errors recorded so far. -/
def completeGo (provider : String) (attempt : String → Except String String) :
    List String → List (String × String) → Except String String
  | [], errors => .error (aggregateFailure provider errors)
  | m :: rest, errors =>
    match attempt m with
    | .ok r => .ok r
    | .error msg => completeGo provider attempt rest (errors ++ [(m, msg)])

def complete (provider : String) (models : List String)
    (attempt : String → Except String String) : Except String String :=
  completeGo provider attempt models []

theorem completeGo_all_fail (provider : String) (attempt : String → Except String String)
    (errsF : String → String) :
    ∀ (models : List String) (errors : List (String × String)),
      (∀ m ∈ models, attempt m = .error (errsF m)) →
      completeGo provider attempt models errors =
        .error (aggregateFailure provider (errors ++ models.map (fun m => (m, errsF m)))) := by
  intro models
  induction models with
  | nil => intro errors _; simp [completeGo]
  | cons m rest ih =>
    intro errors hall
    have hm : attempt m = .error (errsF m) := hall m (List.mem_cons_self _ _)
    rw [completeGo, hm]
    show completeGo provider attempt rest (errors ++ [(m, errsF m)]) = _
    rw [ih (errors ++ [(m, errsF m)]) (fun x hx => hall x (List.mem_cons_of_mem _ hx))]
    simp

theorem completeGo_ok_acc_irrelevant (provider : String)
    (attempt : String → Except String String) :
    ∀ (models : List String) (acc acc2 : List (String × String)) (r : String),
      completeGo provider attempt models acc = .ok r →
      completeGo provider attempt models acc2 = .ok r := by
  intro models
  induction models with
  | nil => intro acc acc2 r h; simp [completeGo] at h
  | cons y rest ih =>
    intro acc acc2 r h
    cases hy : attempt y with
    | ok v =>
      simp only [completeGo, hy] at h ⊢
      exact h
    | error msg =>
      simp only [completeGo, hy] at h ⊢
      exact ih _ _ r h

/-- **C3.** For every ordered model list: (1) if every model attempt
throws, `complete` throws exactly one aggregated error whose message is
built from every attempted model paired with that model's individual
failure message, in order; (2) if some model succeeds after a failing
prefix, `complete` returns that model's result immediately — the result
does not depend on the models after it, which are never attempted. -/
theorem complete_fallback_spec :
    (∀ (provider : String) (models : List String)
        (attempt : String → Except String String) (errsF : String → String),
      (∀ m ∈ models, attempt m = .error (errsF m)) →
      complete provider models attempt =
        .error (aggregateFailure provider (models.map (fun m => (m, errsF m))))) ∧
    (∀ (provider : String) (pre : List String) (m : String) (post : List String)
        (attempt : String → Except String String) (r : String),
      (∀ x ∈ pre, ∃ e, attempt x = .error e) →
      attempt m = .ok r →
      complete provider (pre ++ m :: post) attempt = .ok r) := by
  constructor
  · intro provider models attempt errsF hall
    rw [complete, completeGo_all_fail provider attempt errsF models [] hall]
    simp
  · intro provider pre
    induction pre with
    | nil =>
      intro m post attempt r _ hok
      simp only [List.nil_append, complete, completeGo, hok]
    | cons x pre' ih =>
      intro m post attempt r hfail hok
      obtain ⟨e, he⟩ := hfail x (List.mem_cons_self _ _)
      have step : complete provider ((x :: pre') ++ m :: post) attempt =
          completeGo provider attempt (pre' ++ m :: post) [(x, e)] := by
        rw [complete, List.cons_append, completeGo, he]
        rfl
      rw [step]
      have hrec := ih m post attempt r
        (fun y hy => hfail y (List.mem_cons_of_mem _ hy)) hok
      exact completeGo_ok_acc_irrelevant provider attempt _ [] [(x, e)] r hrec

/-- Witness for C3 at concrete inputs: a chain where both models fail, and
a chain where the second model succeeds with a third never attempted. -/
theorem complete_fallback_spec_witness :
    complete "openai" ["a", "b"] (fun m => .error ("E" ++ m)) =
      .error (aggregateFailure "openai" (["a", "b"].map (fun m => (m, "E" ++ m)))) ∧
    complete "openai" (["a"] ++ "b" :: ["c"])
      (fun m => if m = "b" then .ok "res" else .error "boom") = .ok "res" :=
  ⟨complete_fallback_spec.1 "openai" ["a", "b"] (fun m => .error ("E" ++ m))
      (fun m => "E" ++ m) (by intro m hm; rfl),
   complete_fallback_spec.2 "openai" ["a"] "b" ["c"]
      (fun m => if m = "b" then .ok "res" else .error "boom") "res"
      (by intro x hx; exact ⟨"boom", by simp at hx; simp [hx]⟩) (by simp)⟩

/-! ## Stage response parsers (src/backend/src/prompts)

Each parser extracts one or two XML-style delimited blocks by
first-occurrence search (the semantics of `response.match(/<tag>([\s\S]*?)
<\/tag>/)`), then hands the block's trimmed content to `JSON.parse`.
`JSON.parse` is a platform primitive; it is abstracted as an oracle
`String → Option T` (`none` models a thrown `SyntaxError`), passed in by
the caller. -/

def extractBetween (openTag closeTag : String) (s : String) : Option String :=
  match splitFirst openTag.toList s.toList with
  | none => none
  | some (_, rest) =>
    match splitFirst closeTag.toList rest with
    | none => none
    | some (content, _) => some (String.mk content)

structure ChunkSpec where
  phase : String
  startIndex : Nat
  endIndex : Nat
  patterns : List String
  inferredIntent : String
deriving DecidableEq, Repr

structure ChunkerResponse where
  analysis : String
  chunks : List ChunkSpec
deriving DecidableEq, Repr

/-- `parseChunkerResponse` (src/backend/src/prompts/chunker.ts): a missing
`<chunks>` block, or block content on which `JSON.parse` throws, degrades
to an empty chunk list. -/
def parseChunkerResponse (jsonChunks : String → Option (List ChunkSpec))
    (response : String) : ChunkerResponse :=
  let analysis :=
    match extractBetween "<chunking_analysis>" "</chunking_analysis>" response with
    | some a => jsTrimS a
    | none => ""
  let chunks :=
    match extractBetween "<chunks>" "</chunks>" response with
    | none => []
    | some content =>
      match jsonChunks (jsTrimS content) with
      | some cs => cs
      | none => []
  ⟨analysis, chunks⟩

structure DecisionCriterionJson where
  situation : String
  criterion : String
  source_pattern : String
  confidence : ℚ
deriving DecidableEq, Repr

structure CornerCaseJson where
  situation : String
  resolution : String
  source_evidence : String
deriving DecidableEq, Repr

structure KnowHowJson where
  decision_criteria : List DecisionCriterionJson
  success_signals : List String
  failure_signals : List String
  critical_fields : List String
  corner_cases : List CornerCaseJson
  expert_shortcuts : List String
deriving DecidableEq, Repr

def emptyKnowHowJson : KnowHowJson :=
  { decision_criteria := []
    success_signals := []
    failure_signals := []
    critical_fields := []
    corner_cases := []
    expert_shortcuts := [] }

structure AnalyzerResponse where
  analysis : String
  knowHow : KnowHowJson
deriving DecidableEq, Repr

/-- `parseAnalyzerResponse` (src/unnamed/part_000): a missing
`<know_how_extraction>` block or unparsable JSON keeps the all-empty
default structure. -/
def parseAnalyzerResponse (jsonKnowHow : String → Option KnowHowJson)
    (response : String) : AnalyzerResponse :=
  let analysis :=
    match extractBetween "<analysis>" "</analysis>" response with
    | some a => jsTrimS a
    | none => ""
  let knowHow :=
    match extractBetween "<know_how_extraction>" "</know_how_extraction>" response with
    | none => emptyKnowHowJson
    | some content =>
      match jsonKnowHow (jsTrimS content) with
      | some k => k
      | none => emptyKnowHowJson
  ⟨analysis, knowHow⟩

structure GeneratorResponse where
  summary : String
  instructions : String
  knowHow : String
  rawMarkdown : String
deriving DecidableEq, Repr

/-- The bare heading texts of the three generator sections. -/
def pSummary : List Char := "# Summary".toList

def pInstructions : List Char := "# Instructions".toList

def pKnowHow : List Char := "# Know-How".toList

/-- The heading-plus-newline needles located by the three section
regexps. -/
def hSummary : List Char := "# Summary\n".toList

def hInstructions : List Char := "# Instructions\n".toList

def hKnowHow : List Char := "# Know-How\n".toList

/-- The newline-plus-heading lookahead stop patterns. -/
def sInstructions : List Char := "\n# Instructions".toList

def sKnowHow : List Char := "\n# Know-How".toList

/-- The three section captures of `parseGeneratorResponse` over an already
trimmed character list. -/
def sectionsOf (raw : List Char) : List Char × List Char × List Char :=
  (match splitFirst hSummary raw with
   | some (_, rest) => jsTrim (captureUntil [sInstructions, sKnowHow] rest)
   | none => [],
   match splitFirst hInstructions raw with
   | some (_, rest) => jsTrim (captureUntil [sKnowHow] rest)
   | none => [],
   match splitFirst hKnowHow raw with
   | some (_, rest) => jsTrim rest
   | none => [])

/-- `parseGeneratorResponse` (src/backend/src/prompts/markdown-generator.ts):
trim the response, then slice the three headed sections with
first-occurrence lazy-capture regexps; a missing heading silently yields an
empty string. -/
def parseGeneratorResponse (response : String) : GeneratorResponse :=
  let raw := jsTrim response.toList
  let s := sectionsOf raw
  { summary := String.mk s.1, instructions := String.mk s.2.1,
    knowHow := String.mk s.2.2, rawMarkdown := String.mk raw }

/-! ## Pipeline orchestrator (src/backend/src/services/generator.ts)

`generateDocumentation` is embedded over an `Oracles` record: `llm n` is
the outcome of the `n`-th generation call of the run (`0` chunker,
`1` analyzer, `2` generator; `Except.error` models a rejection of
`complete`, which the orchestrator does not catch), and the two `Option`
fields abstract `JSON.parse` for the stage payloads.  The embedded result
additionally reports how many generation calls were issued, so that the
"no generation call" part of the empty-task claim is expressible. -/

structure TaskSession where
  id : String
  actions : List Action

structure ActionChunk where
  phase : String
  startIndex : Nat
  endIndex : Nat
  actions : List Action
  patterns : List String
  inferredIntent : String
deriving DecidableEq, Repr

structure DecisionCriterion where
  situation : String
  criterion : String
  sourcePattern : String
  confidence : ℚ
deriving DecidableEq, Repr

structure CornerCase where
  situation : String
  resolution : String
  sourceEvidence : String
deriving DecidableEq, Repr

structure KnowHowExtraction where
  decisionCriteria : List DecisionCriterion
  successSignals : List String
  failureSignals : List String
  criticalFields : List String
  cornerCases : List CornerCase
  expertShortcuts : List String
deriving DecidableEq, Repr

structure GeneratedOutput where
  summary : String
  instructions : String
  knowHow : String
  rawMarkdown : String
deriving DecidableEq, Repr

structure GenerationResult where
  chunks : List ActionChunk
  metrics : TaskMetrics
  knowHow : KnowHowExtraction
  output : GeneratedOutput
deriving DecidableEq, Repr

structure Oracles where
  llm : Nat → Except String String
  chunksJson : String → Option (List ChunkSpec)
  knowHowJson : String → Option KnowHowJson

/-- The snake_case → camelCase conversion of the analyzer output performed
inline in `generateDocumentation`. -/
def convertKnowHow (k : KnowHowJson) : KnowHowExtraction :=
  { decisionCriteria := k.decision_criteria.map
      (fun d => ⟨d.situation, d.criterion, d.source_pattern, d.confidence⟩)
    successSignals := k.success_signals
    failureSignals := k.failure_signals
    criticalFields := k.critical_fields
    cornerCases := k.corner_cases.map (fun c => ⟨c.situation, c.resolution, c.source_evidence⟩)
    expertShortcuts := k.expert_shortcuts }

/-- `createEmptyResult`: the fixed result returned for a task with no
actions. -/
def createEmptyResult : GenerationResult :=
  { chunks := []
    metrics := emptyTaskMetrics
    knowHow :=
      { decisionCriteria := [], successSignals := [], failureSignals := []
        criticalFields := [], cornerCases := [], expertShortcuts := [] }
    output :=
      { summary := "No actions were recorded."
        instructions := "No steps to document."
        knowHow := "No know-how extracted."
        rawMarkdown := "# Summary\n\nNo actions were recorded.\n\n# Instructions\n\nNo steps to document.\n\n# Know-How\n\nNo know-how extracted." } }

/-- The orchestrator: short-circuit on an empty task; otherwise run the
three stages strictly in sequence, converting each stage's parsed output
into the next stage's input; a rejected generation call propagates.  The
second component counts the generation calls issued. -/
def generateDocumentation (o : Oracles) (task : TaskSession) :
    Except String (GenerationResult × Nat) :=
  if task.actions.length = 0 then .ok (createEmptyResult, 0)
  else
    match o.llm 0 with
    | .error e => .error e
    | .ok chunkerResp =>
      let chunkerParsed := parseChunkerResponse o.chunksJson chunkerResp
      let chunks : List ActionChunk := chunkerParsed.chunks.map (fun c =>
        { phase := c.phase, startIndex := c.startIndex, endIndex := c.endIndex,
          actions := (task.actions.drop c.startIndex).take (c.endIndex + 1 - c.startIndex),
          patterns := c.patterns, inferredIntent := c.inferredIntent })
      match o.llm 1 with
      | .error e => .error e
      | .ok analyzerResp =>
        let analyzerParsed := parseAnalyzerResponse o.knowHowJson analyzerResp
        let knowHow := convertKnowHow analyzerParsed.knowHow
        match o.llm 2 with
        | .error e => .error e
        | .ok generatorResp =>
          let gp := parseGeneratorResponse generatorResp
          .ok ({ chunks := chunks
                 metrics := calculateMetrics task.actions
                 knowHow := knowHow
                 output :=
                   { summary := gp.summary, instructions := gp.instructions,
                     knowHow := gp.knowHow, rawMarkdown := gp.rawMarkdown } }, 3)

/-- **C4.** For the empty action list, `calculateMetrics` returns a
`TaskMetrics` with every count 0 and every list empty, and
`generateDocumentation` on a task with no actions returns the fixed empty
`GenerationResult` with **zero** generation calls issued, whatever the
generation oracle would answer. -/
theorem empty_task_short_circuit :
    calculateMetrics [] =
      { totalActions := 0, totalDurationMs := 0, longPauses := [],
        backForthPatterns := [], repeatedActions := [], extractionActions := [],
        urlChanges := 0, uniqueDomains := [] } ∧
    ∀ (o : Oracles) (task : TaskSession), task.actions = [] →
      generateDocumentation o task = .ok (createEmptyResult, 0) := by
  refine ⟨rfl, ?_⟩
  intro o task h
  simp [generateDocumentation, h]

/-- Witness for C4 at a concrete empty task and a concrete oracle. -/
theorem empty_task_short_circuit_witness :
    generateDocumentation
      ⟨fun _ => .error "down", fun _ => none, fun _ => none⟩ ⟨"t", []⟩ =
      .ok (createEmptyResult, 0) :=
  empty_task_short_circuit.2 ⟨fun _ => .error "down", fun _ => none, fun _ => none⟩
    ⟨"t", []⟩ rfl

/-- **C5.** For every segmenter-stage response with no parseable `<chunks>`
block (block absent, or `JSON.parse` throwing on its content),
`parseChunkerResponse` returns an empty chunk list, and — provided the
three generation calls themselves resolve — `generateDocumentation` still
completes, passing `chunks = []` to the later stages rather than
throwing. -/
theorem chunker_degrades_to_empty (o : Oracles) (task : TaskSession)
    (r0 r1 r2 : String)
    (hne : task.actions.length ≠ 0)
    (h0 : o.llm 0 = .ok r0) (h1 : o.llm 1 = .ok r1) (h2 : o.llm 2 = .ok r2)
    (hblock : ∀ content, extractBetween "<chunks>" "</chunks>" r0 = some content →
      o.chunksJson (jsTrimS content) = none) :
    (parseChunkerResponse o.chunksJson r0).chunks = [] ∧
    ∃ res : GenerationResult, generateDocumentation o task = .ok (res, 3) ∧
      res.chunks = [] := by
  have hchunks : (parseChunkerResponse o.chunksJson r0).chunks = [] := by
    simp only [parseChunkerResponse]
    cases hx : extractBetween "<chunks>" "</chunks>" r0 with
    | none => rfl
    | some content =>
      show (match o.chunksJson (jsTrimS content) with
            | some cs => cs
            | none => ([] : List ChunkSpec)) = []
      rw [hblock content hx]
  refine ⟨hchunks, ?_⟩
  rw [generateDocumentation, if_neg hne, h0, h1, h2]
  refine ⟨_, rfl, ?_⟩
  simp [hchunks]

/-- Witness for C5: a response with no `<chunks>` block at all, all three
calls succeeding. -/
theorem chunker_degrades_to_empty_witness :
    (parseChunkerResponse (fun _ => none) "no tags here").chunks = [] ∧
    ∃ res : GenerationResult,
      generateDocumentation
        ⟨fun _ => .ok "no tags here", fun _ => none, fun _ => none⟩
        ⟨"t", [default]⟩ = .ok (res, 3) ∧
      res.chunks = [] :=
  chunker_degrades_to_empty
    ⟨fun _ => .ok "no tags here", fun _ => none, fun _ => none⟩
    ⟨"t", [default]⟩ "no tags here" "no tags here" "no tags here"
    (by decide) rfl rfl rfl (fun _ _ => rfl)

/-! ## Occurrence reasoning for the markdown section parser (C8) -/

/-- `needle` occurs nowhere inside `hay` (as a contiguous substring fully
contained in `hay`). -/
def noOcc (needle hay : List Char) : Prop :=
  ∀ i, i < hay.length → needle.isPrefixOf (hay.drop i) = false

/-- `needle` occurs at no position starting inside `hay` of the
concatenation `hay ++ tail` (so no contained occurrence and no occurrence
straddling the junction). -/
def noOccStraddle (needle hay tail : List Char) : Prop :=
  ∀ i, i < hay.length → needle.isPrefixOf (hay.drop i ++ tail) = false

theorem isPrefixOf_append_split (n xs ys : List Char)
    (h : n.isPrefixOf (xs ++ ys) = true) :
    n.isPrefixOf xs = true ∨
    (xs.isPrefixOf n = true ∧ (n.drop xs.length).isPrefixOf ys = true) := by
  induction xs generalizing n with
  | nil =>
    right
    refine ⟨by simp [List.isPrefixOf], ?_⟩
    simpa using h
  | cons x xs' ih =>
    cases n with
    | nil => left; simp [List.isPrefixOf]
    | cons a n' =>
      rw [List.cons_append, List.isPrefixOf, Bool.and_eq_true] at h
      rcases ih n' h.2 with hl | ⟨hp, hd⟩
      · left
        rw [List.isPrefixOf, Bool.and_eq_true]
        exact ⟨h.1, hl⟩
      · right
        have hax : a = x := by simpa using h.1
        constructor
        · rw [List.isPrefixOf, Bool.and_eq_true]
          exact ⟨by simp [hax], hp⟩
        · simpa using hd

theorem splitFirst_append_skip (n : List Char) :
    ∀ (xs ys : List Char), noOccStraddle n xs ys →
      splitFirst n (xs ++ ys) = (splitFirst n ys).map (fun pr => (xs ++ pr.1, pr.2)) := by
  intro xs
  induction xs with
  | nil =>
    intro ys _
    cases h : splitFirst n ys with
    | none => simp [h]
    | some pr => simp [h]
  | cons x xs' ih =>
    intro ys hno
    have h0 : n.isPrefixOf (x :: (xs' ++ ys)) = false := by
      have := hno 0 (by simp)
      simpa using this
    have hshift : noOccStraddle n xs' ys := by
      intro i hi
      have := hno (i + 1) (by simp; omega)
      simpa using this
    rw [List.cons_append, splitFirst, h0]
    simp only [Bool.false_eq_true, if_false]
    rw [ih ys hshift]
    cases splitFirst n ys with
    | none => rfl
    | some pr => rfl

theorem splitFirst_self_append (n rest : List Char) :
    splitFirst n (n ++ rest) = some ([], rest) := by
  cases n with
  | nil =>
    cases rest with
    | nil => rfl
    | cons c cs => simp [splitFirst]
  | cons c n' =>
    have hp : (c :: n').isPrefixOf (c :: (n' ++ rest)) = true := by
      rw [List.isPrefixOf, Bool.and_eq_true]
      exact ⟨by simp, List.isPrefixOf_iff_prefix.mpr (List.prefix_append n' rest)⟩
    rw [List.cons_append, splitFirst, hp]
    simp only [if_true]
    have hdrop : (c :: (n' ++ rest)).drop (c :: n').length = rest := by
      rw [← List.cons_append]
      exact List.drop_left (c :: n') rest
    rw [hdrop]

theorem captureUntil_append_skip (stops : List (List Char)) :
    ∀ (xs ys : List Char), (∀ p ∈ stops, noOccStraddle p xs ys) →
      captureUntil stops (xs ++ ys) = xs ++ captureUntil stops ys := by
  intro xs
  induction xs with
  | nil => intro ys _; simp
  | cons x xs' ih =>
    intro ys hno
    have h0 : (stops.any (fun p => p.isPrefixOf (x :: (xs' ++ ys)))) = false := by
      rw [List.any_eq_false]
      intro p hp hP
      have hfalse := hno p hp 0 (by simp)
      simp only [List.drop_zero, List.cons_append] at hfalse
      rw [hfalse] at hP
      exact Bool.false_ne_true hP
    rw [List.cons_append, captureUntil, h0]
    simp only [Bool.false_eq_true, if_false]
    rw [ih ys (fun p hp i hi => by
      have := hno p hp (i + 1) (by simp; omega)
      simpa using this)]
    rfl

theorem captureUntil_stop (stops : List (List Char)) (ys : List Char)
    (h : stops.any (fun p => p.isPrefixOf ys) = true) : captureUntil stops ys = [] := by
  cases ys with
  | nil => rfl
  | cons c cs => rw [captureUntil, h]; simp

theorem isPrefixOf_append_extend (p a b : List Char) (h : p.isPrefixOf a = true) :
    p.isPrefixOf (a ++ b) = true := by
  rw [List.isPrefixOf_iff_prefix] at h ⊢
  exact h.trans (List.prefix_append a b)

theorem noOcc_mono (Q N hay : List Char) (hQN : Q.isPrefixOf N = true)
    (h : noOcc Q hay) : noOcc N hay := by
  intro i hi
  by_contra hcon
  rw [Bool.not_eq_false] at hcon
  have hQ : Q.isPrefixOf (hay.drop i) = true := by
    rw [List.isPrefixOf_iff_prefix] at hQN hcon ⊢
    exact hQN.trans hcon
  rw [h i hi] at hQ
  exact Bool.false_ne_true hQ

theorem noOcc_cons (c : Char) (P hay : List Char) (hP : P ≠ []) (h : noOcc P hay) :
    noOcc (c :: P) hay := by
  intro i hi
  by_contra hcon
  rw [Bool.not_eq_false, List.isPrefixOf_iff_prefix] at hcon
  obtain ⟨t, ht⟩ := hcon
  rw [List.cons_append] at ht
  have htail : hay.drop (i + 1) = P ++ t := by
    have h2 : (hay.drop i).drop 1 = hay.drop (i + 1) := by
      rw [List.drop_drop]
    rw [← ht] at h2
    simpa using h2.symm
  have hlen : i + 1 < hay.length := by
    have h1 : (hay.drop i).length = hay.length - i := List.length_drop i hay
    rw [← ht] at h1
    simp only [List.length_cons, List.length_append] at h1
    have hPlen : 1 ≤ P.length := by
      cases P with
      | nil => exact absurd rfl hP
      | cons _ _ => simp
    omega
  have : P.isPrefixOf (hay.drop (i + 1)) = true := by
    rw [htail, List.isPrefixOf_iff_prefix]
    exact List.prefix_append P t
  rw [h (i + 1) hlen] at this
  exact Bool.false_ne_true this

theorem noCharAfterHead (n : List Char) (c : Char) (h : ∀ x ∈ n.tail, x ≠ c) :
    ∀ k, 0 < k → k < n.length → n.get? k ≠ some c := by
  intro k hk0 hkl hc
  cases n with
  | nil => simp at hkl
  | cons d tl =>
    cases k with
    | zero => omega
    | succ j =>
      have : tl.get? j = some c := by simpa using hc
      exact h c (List.get?_mem this) rfl

/-- The straddle-blocking lemma: an occurrence of `needle` starting inside
`hay` of `hay ++ tail` either lies fully inside `hay` (excluded by `hno`)
or leaves a nonempty suffix of `needle` that must begin with `tail`'s first
character `c`; the positions of `c` inside `needle` each force a prefix of
`needle` to sit at the end of `hay` (excluded by `hk`). -/
theorem noOccStraddle_block (n hay tail : List Char) (c : Char)
    (htail : tail.head? = some c)
    (hno : noOcc n hay)
    (hk : ∀ k, 0 < k → k < n.length → n.get? k = some c → noOcc (n.take k) hay) :
    noOccStraddle n hay tail := by
  intro i hi
  by_contra hcon
  rw [Bool.not_eq_false] at hcon
  rcases isPrefixOf_append_split n (hay.drop i) tail hcon with hin | ⟨hpre, hdrop⟩
  · rw [hno i hi] at hin
    exact Bool.false_ne_true hin
  · set k := (hay.drop i).length with hkdef
    have hk0 : 0 < k := by
      rw [hkdef, List.length_drop]
      omega
    by_cases hklen : k < n.length
    · have hne : n.drop k ≠ [] := by
        intro hnil
        have := congrArg List.length hnil
        simp [List.length_drop] at this
        omega
      have hhead : (n.drop k).head? = some c := by
        cases hd : n.drop k with
        | nil => exact absurd hd hne
        | cons d rest =>
          rw [hd] at hdrop
          have hdt : tail.head? = some d := by
            rw [List.isPrefixOf_iff_prefix] at hdrop
            obtain ⟨t, ht⟩ := hdrop
            rw [← ht]
            rfl
          have hdc : d = c := by
            rw [hdt] at htail
            exact Option.some.inj htail
          rw [List.head?_cons, hdc]
      have hget : n.get? k = some c := by
        rw [List.get?_eq_getElem?, ← List.head?_drop]
        exact hhead
      have hnotake := hk k hk0 hklen hget i hi
      have htake : hay.drop i = n.take k := by
        rw [List.isPrefixOf_iff_prefix] at hpre
        have h2 := List.prefix_iff_eq_take.mp hpre
        rw [← hkdef] at h2
        exact h2
      have : (n.take k).isPrefixOf (hay.drop i) = true := by
        rw [htake]
        exact List.isPrefixOf_iff_prefix.mpr (List.prefix_refl _)
      rw [hnotake] at this
      exact Bool.false_ne_true this
    · push_neg at hklen
      have hpre' := List.isPrefixOf_iff_prefix.mp hpre
      have hlen2 : n.length ≤ (hay.drop i).length := by
        rw [← hkdef]
        exact hklen
      have heq : hay.drop i = n := hpre'.eq_of_length (le_antisymm hpre'.length_le hlen2)
      have : n.isPrefixOf (hay.drop i) = true := by
        rw [heq]
        exact List.isPrefixOf_iff_prefix.mpr (List.prefix_refl _)
      rw [hno i hi] at this
      exact Bool.false_ne_true this

/-- Decidable straddle check for a concrete `hay`: at each start position
inside `hay`, either the needle fits inside `hay` and does not match, or
the remaining suffix of `hay` is not a prefix of the needle — then no tail
can complete an occurrence. -/
def strictNoOcc (n hay : List Char) : Bool :=
  (List.range hay.length).all (fun i =>
    if n.length ≤ hay.length - i then !(n.isPrefixOf (hay.drop i))
    else !((hay.drop i).isPrefixOf n))

theorem strictNoOcc_spec (n hay : List Char) (h : strictNoOcc n hay = true) :
    ∀ tail, noOccStraddle n hay tail := by
  intro tail i hi
  have hcheck := List.all_eq_true.mp h i (List.mem_range.mpr hi)
  by_contra hcon
  rw [Bool.not_eq_false] at hcon
  have hdlen : (hay.drop i).length = hay.length - i := List.length_drop i hay
  rcases isPrefixOf_append_split n (hay.drop i) tail hcon with hin | ⟨hpre, _⟩
  · have hle : n.length ≤ hay.length - i := by
      rw [← hdlen]
      exact (List.isPrefixOf_iff_prefix.mp hin).length_le
    rw [if_pos hle, hin] at hcheck
    simp at hcheck
  · by_cases hle : n.length ≤ hay.length - i
    · have heq : hay.drop i = n := by
        rw [List.isPrefixOf_iff_prefix] at hpre
        exact hpre.eq_of_length (le_antisymm hpre.length_le (by omega))
      have : n.isPrefixOf (hay.drop i) = true := by
        rw [heq]
        exact List.isPrefixOf_iff_prefix.mpr (List.prefix_refl _)
      rw [if_pos hle, this] at hcheck
      simp at hcheck
    · rw [if_neg hle, hpre] at hcheck
      simp at hcheck

/-! ### Trim lemmas -/

theorem jsTrimLeft_cons_not_ws (c : Char) (t : List Char) (h : c.isWhitespace = false) :
    jsTrimLeft (c :: t) = c :: t := by
  simp [jsTrimLeft, List.dropWhile_cons, h]

theorem jsTrimRight_append_of_ne_nil (xs : List Char) :
    ∀ ys, jsTrimRight ys ≠ [] → jsTrimRight (xs ++ ys) = xs ++ jsTrimRight ys := by
  induction xs with
  | nil => intro ys _; rfl
  | cons x xs' ih =>
    intro ys hys
    rw [List.cons_append, jsTrimRight, ih ys hys]
    cases hx : xs' ++ jsTrimRight ys with
    | nil =>
      exfalso
      rcases List.append_eq_nil.mp hx with ⟨_, h2⟩
      exact hys h2
    | cons d ds =>
      rw [List.cons_append, hx]

theorem jsTrimRight_append_of_nil (xs : List Char) :
    ∀ ys, jsTrimRight ys = [] → jsTrimRight (xs ++ ys) = jsTrimRight xs := by
  induction xs with
  | nil => intro ys h; simpa using h
  | cons x xs' ih =>
    intro ys h
    rw [List.cons_append, jsTrimRight, ih ys h, jsTrimRight]

theorem jsTrimRight_idem (l : List Char) : jsTrimRight (jsTrimRight l) = jsTrimRight l := by
  induction l with
  | nil => rfl
  | cons c t ih =>
    rw [jsTrimRight]
    cases ht : jsTrimRight t with
    | nil =>
      by_cases hc : c.isWhitespace
      · simp [hc, jsTrimRight]
      · simp [hc, jsTrimRight]
    | cons d ds =>
      rw [ht] at ih
      rw [jsTrimRight, ih]

theorem jsTrimLeft_trimRight_comm (l : List Char) :
    jsTrimLeft (jsTrimRight l) = jsTrimRight (jsTrimLeft l) := by
  induction l with
  | nil => rfl
  | cons c t ih =>
    by_cases hc : c.isWhitespace
    · have hL : jsTrimLeft (c :: t) = jsTrimLeft t := by
        simp [jsTrimLeft, List.dropWhile_cons, hc]
      rw [hL, ← ih]
      simp only [jsTrimRight]
      cases ht : jsTrimRight t with
      | nil =>
        rw [if_pos hc]
      | cons d ds =>
        simp [jsTrimLeft, List.dropWhile_cons, hc]
    · have hcf : c.isWhitespace = false := by simpa using hc
      have hL : jsTrimLeft (c :: t) = c :: t := by
        simp [jsTrimLeft, List.dropWhile_cons, hcf]
      rw [hL]
      simp only [jsTrimRight]
      cases ht : jsTrimRight t with
      | nil =>
        rw [if_neg hc]
        simp [jsTrimLeft, List.dropWhile_cons, hcf]
      | cons d ds =>
        simp [jsTrimLeft, List.dropWhile_cons, hcf]

theorem jsTrim_trimRight (l : List Char) : jsTrim (jsTrimRight l) = jsTrim l := by
  rw [jsTrim, jsTrimLeft_trimRight_comm, jsTrimRight_idem, jsTrim]

theorem jsTrim_of_trimRight_nil (l : List Char) (h : jsTrimRight l = []) :
    jsTrim l = [] := by
  rw [jsTrim, ← jsTrimLeft_trimRight_comm, h]
  rfl

/-! ### Straddle obligations for the concrete heading needles -/

theorem isPrefixOf_cons_head_ne (d : Char) (n' : List Char) (c : Char) (t : List Char)
    (h : (d == c) = false) : (d :: n').isPrefixOf (c :: t) = false := by
  rw [List.isPrefixOf]
  simp [h]

theorem splitFirst_cons_of_ne (n : List Char) (c : Char) (cs : List Char)
    (h : n.isPrefixOf (c :: cs) = false) :
    splitFirst n (c :: cs) = (splitFirst n cs).map (fun pr => (c :: pr.1, pr.2)) := by
  rw [splitFirst, h]
  simp only [Bool.false_eq_true, if_false]
  cases splitFirst n cs with
  | none => rfl
  | some pr => rfl

/-- Straddle-freedom of a `'\n' :: P` stop pattern over a body, given that
the following text begins with `'\n'` and `P` contains no newline. -/
theorem block_nl (P hay tail : List Char) (hhead : tail.head? = some '\n')
    (hP : P ≠ []) (hnoP : noOcc P hay) (hnP : ∀ x ∈ P, x ≠ '\n') :
    noOccStraddle ('\n' :: P) hay tail := by
  apply noOccStraddle_block _ _ _ '\n' hhead (noOcc_cons '\n' P hay hP hnoP)
  intro k hk0 hkl hkc
  exact absurd hkc (noCharAfterHead ('\n' :: P) '\n' hnP k hk0 hkl)

/-- Straddle-freedom of a `P ++ ['\n']` heading needle over a body, given
that the following text begins with `'\n'` and `P` contains no newline. -/
theorem block_trailing_nl (P hay tail : List Char) (hhead : tail.head? = some '\n')
    (hnoP : noOcc P hay) (hnP : ∀ x ∈ P, x ≠ '\n') :
    noOccStraddle (P ++ ['\n']) hay tail := by
  apply noOccStraddle_block _ _ _ '\n' hhead
  · exact noOcc_mono P (P ++ ['\n']) hay
      (isPrefixOf_append_extend P P ['\n']
        (List.isPrefixOf_iff_prefix.mpr (List.prefix_refl P))) hnoP
  · intro k hk0 hkl hkc
    by_cases hk : k < P.length
    · exfalso
      have hg : (P ++ ['\n'])[k]? = P[k]? := by
        rw [List.getElem?_append]
        rw [if_pos hk]
      rw [List.get?_eq_getElem?, hg, ← List.get?_eq_getElem?] at hkc
      exact hnP '\n' (List.get?_mem hkc) rfl
    · have hkP : k = P.length := by
        simp only [List.length_append, List.length_singleton] at hkl
        omega
      subst hkP
      rw [List.take_left]
      exact hnoP

/-! ### Locating the three headings inside a well-formed document -/

theorem split_at_hSummary (rest : List Char) :
    splitFirst hSummary (hSummary ++ rest) = some ([], rest) :=
  splitFirst_self_append hSummary rest

theorem capture_summary (l1 rest : List Char)
    (h1I : noOcc pInstructions l1) (h1K : noOcc pKnowHow l1)
    (hpre : sInstructions.isPrefixOf rest = true) :
    captureUntil [sInstructions, sKnowHow] (l1 ++ rest) = l1 := by
  have hhead : rest.head? = some '\n' := by
    rw [show sInstructions = '\n' :: pInstructions from by decide] at hpre
    cases rest with
    | nil => simp [List.isPrefixOf] at hpre
    | cons c cs =>
      rw [List.isPrefixOf, Bool.and_eq_true] at hpre
      have : '\n' = c := by simpa using hpre.1
      rw [List.head?_cons, ← this]
  rw [captureUntil_append_skip]
  · rw [captureUntil_stop]
    · simp
    · rw [List.any_eq_true]
      exact ⟨sInstructions, by simp, hpre⟩
  · intro p hp
    simp only [List.mem_cons, List.mem_singleton] at hp
    rcases hp with hp | hp | hp
    · rw [hp, show sInstructions = '\n' :: pInstructions from by decide]
      exact block_nl pInstructions l1 rest hhead (by decide) h1I (by decide)
    · rw [hp, show sKnowHow = '\n' :: pKnowHow from by decide]
      exact block_nl pKnowHow l1 rest hhead (by decide) h1K (by decide)
    · exact absurd hp (by simp)

theorem capture_instructions (l2 rest : List Char)
    (h2K : noOcc pKnowHow l2)
    (hpre : sKnowHow.isPrefixOf rest = true) :
    captureUntil [sKnowHow] (l2 ++ rest) = l2 := by
  have hhead : rest.head? = some '\n' := by
    rw [show sKnowHow = '\n' :: pKnowHow from by decide] at hpre
    cases rest with
    | nil => simp [List.isPrefixOf] at hpre
    | cons c cs =>
      rw [List.isPrefixOf, Bool.and_eq_true] at hpre
      have : '\n' = c := by simpa using hpre.1
      rw [List.head?_cons, ← this]
  rw [captureUntil_append_skip]
  · rw [captureUntil_stop]
    · simp
    · rw [List.any_eq_true]
      exact ⟨sKnowHow, by simp, hpre⟩
  · intro p hp
    simp only [List.mem_singleton] at hp
    rw [hp, show sKnowHow = '\n' :: pKnowHow from by decide]
    exact block_nl pKnowHow l2 rest hhead (by decide) h2K (by decide)

theorem split_instructions (l1 X : List Char) (h1I : noOcc pInstructions l1) :
    splitFirst hInstructions (hSummary ++ (l1 ++ ('\n' :: (hInstructions ++ X)))) =
      some (hSummary ++ (l1 ++ ['\n']), X) := by
  rw [splitFirst_append_skip hInstructions hSummary _
    (strictNoOcc_spec hInstructions hSummary (by decide) _)]
  rw [splitFirst_append_skip hInstructions l1 _
    (by
      rw [show hInstructions = pInstructions ++ ['\n'] from by decide]
      exact block_trailing_nl pInstructions l1 _ rfl h1I (by decide))]
  rw [splitFirst_cons_of_ne hInstructions '\n' _
    (by
      rw [show hInstructions = '#' :: " Instructions\n".toList from by decide]
      exact isPrefixOf_cons_head_ne '#' _ '\n' _ (by decide))]
  rw [splitFirst_self_append]
  rfl

theorem split_knowHow_found (l1 l2 X : List Char)
    (h1K : noOcc pKnowHow l1) (h2K : noOcc pKnowHow l2) :
    splitFirst hKnowHow
      (hSummary ++ (l1 ++ ('\n' :: (hInstructions ++ (l2 ++ ('\n' :: (hKnowHow ++ X))))))) =
      some (hSummary ++ (l1 ++ ('\n' :: (hInstructions ++ (l2 ++ ['\n'])))), X) := by
  rw [splitFirst_append_skip hKnowHow hSummary _
    (strictNoOcc_spec hKnowHow hSummary (by decide) _)]
  rw [splitFirst_append_skip hKnowHow l1 _
    (by
      rw [show hKnowHow = pKnowHow ++ ['\n'] from by decide]
      exact block_trailing_nl pKnowHow l1 _ rfl h1K (by decide))]
  rw [splitFirst_cons_of_ne hKnowHow '\n' _
    (by
      rw [show hKnowHow = '#' :: " Know-How\n".toList from by decide]
      exact isPrefixOf_cons_head_ne '#' _ '\n' _ (by decide))]
  rw [splitFirst_append_skip hKnowHow hInstructions _
    (strictNoOcc_spec hKnowHow hInstructions (by decide) _)]
  rw [splitFirst_append_skip hKnowHow l2 _
    (by
      rw [show hKnowHow = pKnowHow ++ ['\n'] from by decide]
      exact block_trailing_nl pKnowHow l2 _ rfl h2K (by decide))]
  rw [splitFirst_cons_of_ne hKnowHow '\n' _
    (by
      rw [show hKnowHow = '#' :: " Know-How\n".toList from by decide]
      exact isPrefixOf_cons_head_ne '#' _ '\n' _ (by decide))]
  rw [splitFirst_self_append]
  rfl

theorem split_knowHow_none (l1 l2 : List Char)
    (h1K : noOcc pKnowHow l1) (h2K : noOcc pKnowHow l2) :
    splitFirst hKnowHow
      (hSummary ++ (l1 ++ ('\n' :: (hInstructions ++ (l2 ++ sKnowHow))))) = none := by
  rw [splitFirst_append_skip hKnowHow hSummary _
    (strictNoOcc_spec hKnowHow hSummary (by decide) _)]
  rw [splitFirst_append_skip hKnowHow l1 _
    (by
      rw [show hKnowHow = pKnowHow ++ ['\n'] from by decide]
      exact block_trailing_nl pKnowHow l1 _ rfl h1K (by decide))]
  rw [splitFirst_cons_of_ne hKnowHow '\n' _
    (by
      rw [show hKnowHow = '#' :: " Know-How\n".toList from by decide]
      exact isPrefixOf_cons_head_ne '#' _ '\n' _ (by decide))]
  rw [splitFirst_append_skip hKnowHow hInstructions _
    (strictNoOcc_spec hKnowHow hInstructions (by decide) _)]
  rw [splitFirst_append_skip hKnowHow l2 _
    (by
      rw [show hKnowHow = pKnowHow ++ ['\n'] from by decide]
      exact block_trailing_nl pKnowHow l2 _ rfl h2K (by decide))]
  rw [show splitFirst hKnowHow sKnowHow = none from by decide]
  rfl

/-! ### Trimming a well-formed document -/

theorem jsTrimRight_cons_of_ne_nil (c : Char) (t : List Char) (h : jsTrimRight t ≠ []) :
    jsTrimRight (c :: t) = c :: jsTrimRight t := by
  rw [jsTrimRight]
  cases ht : jsTrimRight t with
  | nil => exact absurd ht h
  | cons d ds => rfl

theorem jsTrimLeft_hSummary_append (X : List Char) :
    jsTrimLeft (hSummary ++ X) = hSummary ++ X := by
  rw [show hSummary = '#' :: " Summary\n".toList from by decide, List.cons_append]
  exact jsTrimLeft_cons_not_ws '#' _ (by decide)

theorem sIns_leads (X : List Char) :
    sInstructions.isPrefixOf ('\n' :: (hInstructions ++ X)) = true := by
  rw [show sInstructions = '\n' :: pInstructions from by decide, List.isPrefixOf,
    Bool.and_eq_true]
  exact ⟨by simp, isPrefixOf_append_extend _ _ _ (by decide)⟩

theorem sKnow_leads (X : List Char) :
    sKnowHow.isPrefixOf ('\n' :: (hKnowHow ++ X)) = true := by
  rw [show sKnowHow = '\n' :: pKnowHow from by decide, List.isPrefixOf, Bool.and_eq_true]
  exact ⟨by simp, isPrefixOf_append_extend _ _ _ (by decide)⟩

theorem raw_trim_A (l1 l2 l3 : List Char) (h3 : jsTrimRight l3 ≠ []) :
    jsTrim (hSummary ++ (l1 ++ ('\n' :: (hInstructions ++ (l2 ++ ('\n' :: (hKnowHow ++ l3))))))) =
      hSummary ++ (l1 ++ ('\n' :: (hInstructions ++ (l2 ++ ('\n' :: (hKnowHow ++ jsTrimRight l3)))))) := by
  have e6 : jsTrimRight (hKnowHow ++ l3) = hKnowHow ++ jsTrimRight l3 :=
    jsTrimRight_append_of_ne_nil _ _ h3
  have n6 : hKnowHow ++ jsTrimRight l3 ≠ [] := by simp [hKnowHow]
  have e5 : jsTrimRight ('\n' :: (hKnowHow ++ l3)) = '\n' :: (hKnowHow ++ jsTrimRight l3) := by
    rw [jsTrimRight_cons_of_ne_nil _ _ (by rw [e6]; exact n6), e6]
  have e4 : jsTrimRight (l2 ++ ('\n' :: (hKnowHow ++ l3))) =
      l2 ++ ('\n' :: (hKnowHow ++ jsTrimRight l3)) := by
    rw [jsTrimRight_append_of_ne_nil _ _ (by rw [e5]; simp), e5]
  have e3 : jsTrimRight (hInstructions ++ (l2 ++ ('\n' :: (hKnowHow ++ l3)))) =
      hInstructions ++ (l2 ++ ('\n' :: (hKnowHow ++ jsTrimRight l3))) := by
    rw [jsTrimRight_append_of_ne_nil _ _ (by rw [e4]; simp), e4]
  have e2 : jsTrimRight ('\n' :: (hInstructions ++ (l2 ++ ('\n' :: (hKnowHow ++ l3))))) =
      '\n' :: (hInstructions ++ (l2 ++ ('\n' :: (hKnowHow ++ jsTrimRight l3)))) := by
    rw [jsTrimRight_cons_of_ne_nil _ _ (by rw [e3]; simp [hInstructions]), e3]
  have e1 : jsTrimRight (l1 ++ ('\n' :: (hInstructions ++ (l2 ++ ('\n' :: (hKnowHow ++ l3)))))) =
      l1 ++ ('\n' :: (hInstructions ++ (l2 ++ ('\n' :: (hKnowHow ++ jsTrimRight l3))))) := by
    rw [jsTrimRight_append_of_ne_nil _ _ (by rw [e2]; simp), e2]
  rw [jsTrim, jsTrimLeft_hSummary_append,
    jsTrimRight_append_of_ne_nil _ _ (by rw [e1]; simp), e1]

theorem raw_trim_B (l1 l2 l3 : List Char) (h3 : jsTrimRight l3 = []) :
    jsTrim (hSummary ++ (l1 ++ ('\n' :: (hInstructions ++ (l2 ++ ('\n' :: (hKnowHow ++ l3))))))) =
      hSummary ++ (l1 ++ ('\n' :: (hInstructions ++ (l2 ++ sKnowHow)))) := by
  have hsplit : hKnowHow ++ l3 = pKnowHow ++ ('\n' :: l3) := by
    rw [show hKnowHow = pKnowHow ++ ['\n'] from by decide, List.append_assoc]
    rfl
  have hnl3 : jsTrimRight ('\n' :: l3) = [] := by
    rw [jsTrimRight, h3]
    simp
  have e6 : jsTrimRight (hKnowHow ++ l3) = pKnowHow := by
    rw [hsplit, jsTrimRight_append_of_nil _ _ hnl3,
      show jsTrimRight pKnowHow = pKnowHow from by decide]
  have e5 : jsTrimRight ('\n' :: (hKnowHow ++ l3)) = sKnowHow := by
    rw [jsTrimRight_cons_of_ne_nil _ _ (by rw [e6]; simp [pKnowHow]), e6]
    decide
  have e4 : jsTrimRight (l2 ++ ('\n' :: (hKnowHow ++ l3))) = l2 ++ sKnowHow := by
    rw [jsTrimRight_append_of_ne_nil _ _ (by rw [e5]; simp [sKnowHow]), e5]
  have e3 : jsTrimRight (hInstructions ++ (l2 ++ ('\n' :: (hKnowHow ++ l3)))) =
      hInstructions ++ (l2 ++ sKnowHow) := by
    rw [jsTrimRight_append_of_ne_nil _ _ (by rw [e4]; simp [sKnowHow]), e4]
  have e2 : jsTrimRight ('\n' :: (hInstructions ++ (l2 ++ ('\n' :: (hKnowHow ++ l3))))) =
      '\n' :: (hInstructions ++ (l2 ++ sKnowHow)) := by
    rw [jsTrimRight_cons_of_ne_nil _ _ (by rw [e3]; simp [hInstructions]), e3]
  have e1 : jsTrimRight (l1 ++ ('\n' :: (hInstructions ++ (l2 ++ ('\n' :: (hKnowHow ++ l3)))))) =
      l1 ++ ('\n' :: (hInstructions ++ (l2 ++ sKnowHow))) := by
    rw [jsTrimRight_append_of_ne_nil _ _ (by rw [e2]; simp), e2]
  rw [jsTrim, jsTrimLeft_hSummary_append,
    jsTrimRight_append_of_ne_nil _ _ (by rw [e1]; simp), e1]

/-! ### The markdown round-trip (claim C8) -/

/-- A markdown document built from three section bodies under the three
literal headings in order. -/
def mdDoc (s1 s2 s3 : String) : String :=
  "# Summary\n" ++ s1 ++ "\n# Instructions\n" ++ s2 ++ "\n# Know-How\n" ++ s3

/-- The amended hypothesis on a section body: it contains none of the three
heading texts as a substring anywhere (not merely at line starts). -/
def headingFree (s : String) : Prop :=
  noOcc pSummary s.toList ∧ noOcc pInstructions s.toList ∧ noOcc pKnowHow s.toList

instance (needle hay : List Char) : Decidable (noOcc needle hay) :=
  inferInstanceAs (Decidable (∀ i, i < hay.length → needle.isPrefixOf (hay.drop i) = false))

instance (s : String) : Decidable (headingFree s) :=
  inferInstanceAs (Decidable (_ ∧ _ ∧ _))

theorem toList_append (a b : String) : (a ++ b).toList = a.toList ++ b.toList := by
  simp [String.toList]

theorem mdDoc_toList (s1 s2 s3 : String) :
    (mdDoc s1 s2 s3).toList =
      hSummary ++ (s1.toList ++ ('\n' :: (hInstructions ++
        (s2.toList ++ ('\n' :: (hKnowHow ++ s3.toList)))))) := by
  rw [mdDoc, toList_append, toList_append, toList_append, toList_append, toList_append]
  rw [show ("\n# Instructions\n" : String).toList = '\n' :: hInstructions from by decide]
  rw [show ("\n# Know-How\n" : String).toList = '\n' :: hKnowHow from by decide]
  show hSummary ++ _ ++ _ ++ _ ++ _ ++ _ = _
  simp [List.append_assoc]

theorem sectionsOf_shape_A (l1 l2 l3 : List Char)
    (h1I : noOcc pInstructions l1) (h1K : noOcc pKnowHow l1)
    (h2K : noOcc pKnowHow l2) :
    sectionsOf (hSummary ++ (l1 ++ ('\n' :: (hInstructions ++
        (l2 ++ ('\n' :: (hKnowHow ++ jsTrimRight l3))))))) =
      (jsTrim l1, jsTrim l2, jsTrim l3) := by
  rw [sectionsOf]
  rw [split_at_hSummary]
  rw [split_instructions _ _ h1I]
  rw [split_knowHow_found _ _ _ h1K h2K]
  simp only []
  rw [capture_summary l1 _ h1I h1K (sIns_leads _)]
  rw [capture_instructions l2 _ h2K (sKnow_leads _)]
  rw [jsTrim_trimRight]

theorem sectionsOf_shape_B (l1 l2 l3 : List Char)
    (h1I : noOcc pInstructions l1) (h1K : noOcc pKnowHow l1)
    (h2K : noOcc pKnowHow l2) (h3 : jsTrimRight l3 = []) :
    sectionsOf (hSummary ++ (l1 ++ ('\n' :: (hInstructions ++ (l2 ++ sKnowHow))))) =
      (jsTrim l1, jsTrim l2, jsTrim l3) := by
  rw [sectionsOf]
  rw [split_at_hSummary]
  have hsk : sKnowHow = '\n' :: (pKnowHow ++ []) := by decide
  rw [split_instructions _ _ h1I]
  rw [split_knowHow_none _ _ h1K h2K]
  simp only []
  rw [capture_summary l1 _ h1I h1K (sIns_leads _)]
  rw [capture_instructions l2 _ h2K
    (by rw [show sKnowHow.isPrefixOf sKnowHow = true from by decide])]
  rw [jsTrim_of_trimRight_nil l3 h3]

/-- **C8 (amended).** For every markdown string built from three section
bodies under the literal headings `# Summary`, `# Instructions` and
`# Know-How` in that order, provided each body contains none of the three
heading strings as a substring **anywhere** (not merely as a line start),
`parseGeneratorResponse` returns the three bodies verbatim modulo
surrounding whitespace, with `rawMarkdown` the whole trimmed document. -/
theorem generator_roundtrip (s1 s2 s3 : String)
    (h1 : headingFree s1) (h2 : headingFree s2) (_h3 : headingFree s3) :
    parseGeneratorResponse (mdDoc s1 s2 s3) =
      { summary := jsTrimS s1, instructions := jsTrimS s2, knowHow := jsTrimS s3,
        rawMarkdown := jsTrimS (mdDoc s1 s2 s3) } := by
  obtain ⟨h1S, h1I, h1K⟩ := h1
  obtain ⟨h2S, h2I, h2K⟩ := h2
  rw [parseGeneratorResponse, jsTrimS, jsTrimS, jsTrimS, jsTrimS]
  simp only [mdDoc_toList]
  by_cases hcase : jsTrimRight s3.toList = []
  · rw [raw_trim_B s1.toList s2.toList s3.toList hcase]
    rw [sectionsOf_shape_B s1.toList s2.toList s3.toList h1I h1K h2K hcase]
  · rw [raw_trim_A s1.toList s2.toList s3.toList hcase]
    rw [sectionsOf_shape_A s1.toList s2.toList s3.toList h1I h1K h2K]

/-- Line splitting, to express the claim's original hypothesis ("bodies
containing no *line* starting with one of these headings"). -/
def splitOnNl : List Char → List (List Char)
  | [] => [[]]
  | c :: t =>
    match splitOnNl t with
    | [] => [[c]]
    | h :: r => if c = '\n' then [] :: h :: r else (c :: h) :: r

def startsWithHeading (line : List Char) : Bool :=
  pSummary.isPrefixOf line || pInstructions.isPrefixOf line || pKnowHow.isPrefixOf line

/-- The hypothesis exactly as claim C8 states it: no line of the body
starts with one of the three headings. -/
def linesNoHeading (s : String) : Prop :=
  ∀ line ∈ splitOnNl s.toList, startsWithHeading line = false

instance (s : String) : Decidable (linesNoHeading s) :=
  inferInstanceAs (Decidable (∀ line ∈ splitOnNl s.toList, startsWithHeading line = false))

/-- **C8 counterexample.** The claim's hypothesis is too weak: the section
regexps match a heading **mid-line**.  With the bodies
`"a # Instructions\nb"`, `"x"`, `"y"` — none of which has a line starting
with a heading — re-parsing the built document yields
`instructions = "b\n# Instructions\nx"`, not `"x"`: the `# Instructions\n`
occurrence inside the first body's first line is found first. -/
theorem generator_roundtrip_counterexample :
    linesNoHeading "a # Instructions\nb" ∧ linesNoHeading "x" ∧ linesNoHeading "y" ∧
    (parseGeneratorResponse (mdDoc "a # Instructions\nb" "x" "y")).instructions =
      "b\n# Instructions\nx" ∧
    ¬ ((parseGeneratorResponse (mdDoc "a # Instructions\nb" "x" "y")).instructions =
      jsTrimS "x") := by decide

/-- Witness for the amended C8 at concrete heading-free bodies. -/
theorem generator_roundtrip_witness :
    parseGeneratorResponse (mdDoc "alpha" "beta" "gamma") =
      { summary := jsTrimS "alpha", instructions := jsTrimS "beta",
        knowHow := jsTrimS "gamma",
        rawMarkdown := jsTrimS (mdDoc "alpha" "beta" "gamma") } :=
  generator_roundtrip "alpha" "beta" "gamma" (by decide) (by decide) (by decide)

end TaskRecorder
